import Mathlib

/-!
# Order-book engine: treap with order statistics

Shallow embedding of the order-book core of `OrderBook.cpp`: a treap keyed by
`(price, insertion_id)` with subtree sizes, and the `OrderBook` wrapper with
`add`, `removeByPosition` (cancel by rank) and `buy` (market execution).

C++ `int` / `long long` values are modelled as `Int`; the per-node random
priority produced by `rand()` is passed in as an explicit parameter, so all
theorems quantify over every possible priority stream.  The in-place pointer
mutation `top->sizeShares -= canFill` performed by `buy` through the node
returned by `getByRank(root, 0)` is modelled by `setShares`, which descends by
exactly the same stored-size comparisons as `getByRank` and rewrites the
`sizeShares` field of the node it reaches, touching nothing else.
-/

namespace OrderBookModel

/-- Payload of a tree node as observed through `getByRank`:
`price`, `sizeShares` (remaining quantity) and `insertion_id` (sequence). -/
structure OrderData where
  price : Int
  sizeShares : Int
  insertion_id : Int
deriving DecidableEq, Repr

/-- `TreapNode*`: either `nullptr` or a node carrying
`(price, sizeShares, insertion_id, priority, subtree_size, left, right)`. -/
inductive Treap where
  | nil : Treap
  | node (price sizeShares insertion_id priority subtree_size : Int)
      (left right : Treap) : Treap
deriving DecidableEq, Repr

open Treap

/-- `getSize`: `n ? n->subtree_size : 0`. -/
def getSize : Treap → Int
  | .nil => 0
  | .node _ _ _ _ sz _ _ => sz

/-- `updateSize`: recompute the root's `subtree_size` from its children. -/
def updateSize : Treap → Treap
  | .nil => .nil
  | .node p s i pr _ l r => .node p s i pr (1 + getSize l + getSize r) l r

/-- Priority of the root (`0` for the null tree; never used on null). -/
def getPrio : Treap → Int
  | .nil => 0
  | .node _ _ _ pr _ _ _ => pr

/-- `rotateRight`: requires a non-null left child in the source; the fallback
case is never reached by `treapInsert`. -/
def rotateRight : Treap → Treap
  | .node py sy iy pry szy (.node px sx ix prx _ a b) c =>
      updateSize (.node px sx ix prx 0 a (updateSize (.node py sy iy pry szy b c)))
  | t => t

/-- `rotateLeft`. -/
def rotateLeft : Treap → Treap
  | .node px sx ix prx szx a (.node py sy iy pry _ b c) =>
      updateSize (.node py sy iy pry 0 (updateSize (.node px sx ix prx szx a b)) c)
  | t => t

/-- `lessThan`: compare `(price, insertion_id)` pairs lexicographically,
ascending. -/
def lessThan (p1 i1 p2 i2 : Int) : Bool :=
  if p1 ≠ p2 then decide (p1 < p2) else decide (i1 < i2)

/-- `treapInsert`: BST insertion by `(price, insertion_id)` followed by the
rotate-on-priority-violation fix and a size update. -/
def treapInsert : Treap → Int → Int → Int → Int → Treap
  | .nil, price, sz, ins_id, prio => .node price sz ins_id prio 1 .nil .nil
  | .node p s i pr ssz l r, price, sz, ins_id, prio =>
      if lessThan price ins_id p i then
        let l2 := treapInsert l price sz ins_id prio
        updateSize
          (if getPrio l2 > pr then rotateRight (.node p s i pr ssz l2 r)
           else .node p s i pr ssz l2 r)
      else
        let r2 := treapInsert r price sz ins_id prio
        updateSize
          (if getPrio r2 > pr then rotateLeft (.node p s i pr ssz l r2)
           else .node p s i pr ssz l r2)

/-- `treapMerge`: merge two treaps, all keys of `L` preceding all keys of `R`. -/
def treapMerge : Treap → Treap → Treap
  | .nil, R => R
  | L, .nil => L
  | .node pl sl il prl szl ll rl, .node pr2 sr ir prr szr lr rr =>
      if prl > prr then
        updateSize (.node pl sl il prl szl ll
          (treapMerge rl (.node pr2 sr ir prr szr lr rr)))
      else
        updateSize (.node pr2 sr ir prr szr
          (treapMerge (.node pl sl il prl szl ll rl) lr) rr)

/-- `treapSplit`: split into (keys ≤ `(price, ins)`, keys > `(price, ins)`). -/
def treapSplit : Treap → Int → Int → Treap × Treap
  | .nil, _, _ => (.nil, .nil)
  | .node p s i pr ssz l r, price, ins =>
      if lessThan p i price ins || (p == price && i == ins) then
        let sp := treapSplit r price ins
        (updateSize (.node p s i pr ssz l sp.1), sp.2)
      else
        let sp := treapSplit l price ins
        (sp.1, updateSize (.node p s i pr ssz sp.2 r))

/-- `treapRemoveKey`: remove the node with exactly key `(price, ins)`, merging
its children; no-op when the key is absent. -/
def treapRemoveKey : Treap → Int → Int → Treap
  | .nil, _, _ => .nil
  | .node p s i pr ssz l r, price, ins =>
      if p == price && i == ins then treapMerge l r
      else if lessThan price ins p i then
        updateSize (.node p s i pr ssz (treapRemoveKey l price ins) r)
      else
        updateSize (.node p s i pr ssz l (treapRemoveKey r price ins))

/-- `getByRank`: 0-based rank lookup driven by the stored left-subtree size;
`nullptr` (here `none`) on any out-of-range rank. -/
def getByRank : Treap → Int → Option OrderData
  | .nil, _ => none
  | .node p s i _ _ l r, rank =>
      let leftSize := getSize l
      if rank < leftSize then getByRank l rank
      else if rank == leftSize then some ⟨p, s, i⟩
      else getByRank r (rank - leftSize - 1)

/-- `removeByRank`: remove the node at the given rank; unchanged tree when the
rank is out of range. -/
def removeByRank : Treap → Int → Treap
  | .nil, _ => .nil
  | .node p s i pr ssz l r, rank =>
      let leftSize := getSize l
      if rank < leftSize then
        updateSize (.node p s i pr ssz (removeByRank l rank) r)
      else if rank == leftSize then treapMerge l r
      else
        updateSize (.node p s i pr ssz l (removeByRank r (rank - leftSize - 1)))

/-- Model of `top->sizeShares = v` where `top = getByRank(root, rank)`: descend
by exactly the comparisons of `getByRank` and overwrite the `sizeShares` field
of the node reached; no size or structure change (the C++ mutation goes
through a pointer and touches only that field). -/
def setShares : Treap → Int → Int → Treap
  | .nil, _, _ => .nil
  | .node p s i pr ssz l r, rank, v =>
      let leftSize := getSize l
      if rank < leftSize then .node p s i pr ssz (setShares l rank v) r
      else if rank == leftSize then .node p v i pr ssz l r
      else .node p s i pr ssz l (setShares r (rank - leftSize - 1) v)

/-- Number of nodes actually present in the tree (independent of the stored
`subtree_size` fields). -/
def nodeCount : Treap → Nat
  | .nil => 0
  | .node _ _ _ _ _ l r => 1 + nodeCount l + nodeCount r

/-- In-order traversal: the book's orders in rank order. -/
def inorder : Treap → List OrderData
  | .nil => []
  | .node p s i _ _ l r => inorder l ++ ⟨p, s, i⟩ :: inorder r

/-- `true` iff the root's priority is at most `b` (null trees pass). -/
def rootPrioLe : Treap → Int → Bool
  | .nil, _ => true
  | .node _ _ _ pr _ _ _, b => decide (pr ≤ b)

/-- Max-heap property on priorities: every parent's priority is ≥ both
children's. -/
def heapOk : Treap → Bool
  | .nil => true
  | .node _ _ _ pr _ l r => rootPrioLe l pr && rootPrioLe r pr && heapOk l && heapOk r

/-- Both children's root priorities are at most `b`. -/
def childPrioLe : Treap → Int → Bool
  | .nil, _ => true
  | .node _ _ _ _ _ l r, b => rootPrioLe l b && rootPrioLe r b

/-- Local consistency of every stored `subtree_size`. -/
def sizeOk : Treap → Bool
  | .nil => true
  | .node _ _ _ _ ssz l r => (ssz == 1 + getSize l + getSize r) && sizeOk l && sizeOk r

/-- Strict key order on payloads: `(price, insertion_id)` ascending. -/
def keyLt (a b : OrderData) : Prop :=
  lessThan a.price a.insertion_id b.price b.insertion_id = true

instance (a b : OrderData) : Decidable (keyLt a b) := by
  unfold keyLt; infer_instance

/-- Every key in the tree is `lessThan` the bound `(bp, bi)`. -/
def allKeysLtB : Treap → Int → Int → Bool
  | .nil, _, _ => true
  | .node p _ i _ _ l r, bp, bi =>
      lessThan p i bp bi && allKeysLtB l bp bi && allKeysLtB r bp bi

/-- Every key in the tree is greater than the bound `(bp, bi)`. -/
def allKeysGtB : Treap → Int → Int → Bool
  | .nil, _, _ => true
  | .node p _ i _ _ l r, bp, bi =>
      lessThan bp bi p i && allKeysGtB l bp bi && allKeysGtB r bp bi

/-- BST property on `(price, insertion_id)` keys. -/
def bstOk : Treap → Bool
  | .nil => true
  | .node p _ i _ _ l r =>
      allKeysLtB l p i && allKeysGtB r p i && bstOk l && bstOk r

/-- All three structural invariants of the spec: strictly increasing in-order
keys, heap order on priorities, and locally consistent subtree sizes. -/
def Inv (t : Treap) : Prop :=
  List.Pairwise keyLt (inorder t) ∧ heapOk t = true ∧ sizeOk t = true

instance (t : Treap) : Decidable (Inv t) := by
  unfold Inv
  infer_instance

theorem nodeCount_updateSize (t : Treap) : nodeCount (updateSize t) = nodeCount t := by
  cases t <;> simp [updateSize, nodeCount]

theorem inorder_updateSize (t : Treap) : inorder (updateSize t) = inorder t := by
  cases t <;> simp [updateSize, inorder]

theorem nodeCount_merge (L R : Treap) :
    nodeCount (treapMerge L R) = nodeCount L + nodeCount R := by
  induction L generalizing R with
  | nil => simp [treapMerge, nodeCount]
  | node pl sl il prl szl ll rl ih1 ih2 =>
    induction R with
    | nil => simp [treapMerge, nodeCount]
    | node pr2 sr ir prr szr lr rr ih3 ih4 =>
      rw [treapMerge]
      split
      · rw [nodeCount_updateSize]
        simp only [nodeCount]
        rw [ih2]
        simp [nodeCount]; omega
      · rw [nodeCount_updateSize]
        simp only [nodeCount]
        rw [ih3]
        simp [nodeCount]; omega

theorem getSize_setShares (t : Treap) (r v : Int) :
    getSize (setShares t r v) = getSize t := by
  cases t with
  | nil => rfl
  | node p s i pr ssz l rr =>
    rw [setShares]
    split
    · rfl
    · split <;> rfl

theorem nodeCount_setShares (t : Treap) (r v : Int) :
    nodeCount (setShares t r v) = nodeCount t := by
  induction t generalizing r with
  | nil => rfl
  | node p s i pr ssz l rr ih1 ih2 =>
    rw [setShares]
    split
    · simp [nodeCount, ih1]
    · split
      · rfl
      · simp [nodeCount, ih2]

theorem getByRank_setShares_isSome (t : Treap) (r v rk : Int) :
    (getByRank (setShares t r v) rk).isSome = (getByRank t rk).isSome := by
  induction t generalizing r rk with
  | nil => rfl
  | node p s i pr ssz l rr ih1 ih2 =>
    rw [setShares]
    split
    · rw [getByRank, getByRank]
      simp only [getSize_setShares]
      split
      · exact ih1 _ _
      · split <;> rfl
    · split
      · rw [getByRank, getByRank]
        split
        · rfl
        · split <;> rfl
      · rw [getByRank, getByRank]
        split
        · rfl
        · split
          · rfl
          · exact ih2 _ _

theorem nodeCount_removeByRank_lt (t : Treap) (rk : Int)
    (h : (getByRank t rk).isSome = true) :
    nodeCount (removeByRank t rk) < nodeCount t := by
  induction t generalizing rk with
  | nil => simp [getByRank] at h
  | node p s i pr ssz l rr ih1 ih2 =>
    rw [getByRank] at h
    rw [removeByRank]
    split at h
    · rename_i hc
      rw [if_pos hc, nodeCount_updateSize]
      simp only [nodeCount]
      have := ih1 rk h
      omega
    · rename_i hc
      rw [if_neg hc]
      split at h
      · rename_i hc2
        rw [if_pos hc2, nodeCount_merge]
        simp [nodeCount]
      · rename_i hc2
        rw [if_neg hc2, nodeCount_updateSize]
        simp only [nodeCount]
        have := ih2 (rk - getSize l - 1) h
        omega

/-- `OrderBook::buy` as a recursive loop: pull from rank 0, accumulate
`canFill * price`, decrement the top order in place, remove it when it hits
zero, and stop when the request is filled or the book is empty.  `cost` is the
accumulator; returns `(totalCost, final tree)`. -/
def buyLoop (root : Treap) (shares cost : Int) : Int × Treap :=
  if hs : 0 < shares then
    match hr : getByRank root 0 with
    | none => (cost, root)
    | some top =>
      if top.sizeShares - min shares top.sizeShares = 0 then
        buyLoop
          (removeByRank (setShares root 0 (top.sizeShares - min shares top.sizeShares)) 0)
          (shares - min shares top.sizeShares)
          (cost + min shares top.sizeShares * top.price)
      else
        buyLoop
          (setShares root 0 (top.sizeShares - min shares top.sizeShares))
          (shares - min shares top.sizeShares)
          (cost + min shares top.sizeShares * top.price)
  else (cost, root)
termination_by 2 * nodeCount root + (if 0 < shares then 1 else 0)
decreasing_by
  · have h1 : (getByRank (setShares root 0 (top.sizeShares - min shares top.sizeShares)) 0).isSome = true := by
      rw [getByRank_setShares_isSome, hr]; rfl
    have h2 := nodeCount_removeByRank_lt _ _ h1
    rw [nodeCount_setShares] at h2
    have h3 : (if 0 < shares then 1 else 0) = 1 := if_pos hs
    rw [h3]
    split <;> omega
  · rename_i hz
    have h3 : min shares top.sizeShares = shares := by
      rcases min_choice shares top.sizeShares with h | h
      · exact h
      · exact absurd (by omega) hz
    rw [nodeCount_setShares, h3]
    simp [hs]

/-- The `OrderBook` wrapper: owns the tree root and the monotonically
increasing insertion counter. -/
structure OrderBook where
  root : Treap
  globalInsertionCounter : Int
deriving DecidableEq, Repr

/-- The freshly constructed, empty book. -/
def emptyBook : OrderBook := ⟨.nil, 0⟩

/-- `OrderBook::add`: insert with the next global insertion id; `prio` is the
random priority drawn for the new node. -/
def OrderBook.add (b : OrderBook) (price size prio : Int) : OrderBook :=
  { root := treapInsert b.root price size b.globalInsertionCounter prio,
    globalInsertionCounter := b.globalInsertionCounter + 1 }

/-- `OrderBook::removeByPosition`: rank-based cancel, position 0 = best. -/
def OrderBook.removeByPosition (b : OrderBook) (pos : Int) : OrderBook :=
  { b with root := removeByRank b.root pos }

/-- `OrderBook::buy`: returns the cost and the mutated book. -/
def OrderBook.buy (b : OrderBook) (shares : Int) : Int × OrderBook :=
  ((buyLoop b.root shares 0).1, { b with root := (buyLoop b.root shares 0).2 })

/-! ### Basic facts about `inorder`, sizes and the key order -/

theorem inorder_eq_nil_iff (t : Treap) : inorder t = [] ↔ t = .nil := by
  cases t <;> simp [inorder]

theorem length_inorder (t : Treap) : (inorder t).length = nodeCount t := by
  induction t with
  | nil => rfl
  | node p s i pr ssz l r ih1 ih2 =>
    simp [inorder, nodeCount, ih1, ih2]; omega

theorem getSize_node (p s i pr ssz : Int) (l r : Treap) :
    getSize (.node p s i pr ssz l r) = ssz := rfl

theorem sizeOk_node_iff (p s i pr ssz : Int) (l r : Treap) :
    sizeOk (.node p s i pr ssz l r) = true ↔
      ssz = 1 + getSize l + getSize r ∧ sizeOk l = true ∧ sizeOk r = true := by
  simp [sizeOk, Bool.and_eq_true, and_assoc]

theorem getSize_eq_nodeCount (t : Treap) (h : sizeOk t = true) :
    getSize t = (nodeCount t : Int) := by
  induction t with
  | nil => rfl
  | node p s i pr ssz l r ih1 ih2 =>
    rw [sizeOk_node_iff] at h
    obtain ⟨h1, h2, h3⟩ := h
    rw [getSize, h1, ih1 h2, ih2 h3, nodeCount]
    push_cast
    ring

theorem getSize_nonneg (t : Treap) (h : sizeOk t = true) : 0 ≤ getSize t := by
  rw [getSize_eq_nodeCount t h]; positivity

theorem lessThan_iff (p1 i1 p2 i2 : Int) :
    lessThan p1 i1 p2 i2 = true ↔ (p1 < p2 ∨ (p1 = p2 ∧ i1 < i2)) := by
  unfold lessThan
  split_ifs with h <;> simp only [decide_eq_true_eq] <;> omega

theorem keyLt_iff (a b : OrderData) :
    keyLt a b ↔ (a.price < b.price ∨ (a.price = b.price ∧ a.insertion_id < b.insertion_id)) := by
  unfold keyLt
  exact lessThan_iff _ _ _ _

theorem keyLt_trans {a b c : OrderData} (h1 : keyLt a b) (h2 : keyLt b c) : keyLt a c := by
  rw [keyLt_iff] at *
  omega

theorem allKeysLtB_iff (t : Treap) (bp bi : Int) :
    allKeysLtB t bp bi = true ↔
      ∀ x ∈ inorder t, lessThan x.price x.insertion_id bp bi = true := by
  induction t with
  | nil => simp [allKeysLtB, inorder]
  | node p s i pr ssz l r ih1 ih2 =>
    simp only [allKeysLtB, Bool.and_eq_true, ih1, ih2, inorder, List.mem_append,
      List.mem_cons]
    constructor
    · rintro ⟨⟨hroot, hl⟩, hr⟩ x hx
      rcases hx with hx | hx | hx
      · exact hl x hx
      · subst hx; exact hroot
      · exact hr x hx
    · intro h
      exact ⟨⟨h _ (Or.inr (Or.inl rfl)), fun x hx => h x (Or.inl hx)⟩,
        fun x hx => h x (Or.inr (Or.inr hx))⟩

theorem allKeysGtB_iff (t : Treap) (bp bi : Int) :
    allKeysGtB t bp bi = true ↔
      ∀ x ∈ inorder t, lessThan bp bi x.price x.insertion_id = true := by
  induction t with
  | nil => simp [allKeysGtB, inorder]
  | node p s i pr ssz l r ih1 ih2 =>
    simp only [allKeysGtB, Bool.and_eq_true, ih1, ih2, inorder, List.mem_append,
      List.mem_cons]
    constructor
    · rintro ⟨⟨hroot, hl⟩, hr⟩ x hx
      rcases hx with hx | hx | hx
      · exact hl x hx
      · subst hx; exact hroot
      · exact hr x hx
    · intro h
      exact ⟨⟨h _ (Or.inr (Or.inl rfl)), fun x hx => h x (Or.inl hx)⟩,
        fun x hx => h x (Or.inr (Or.inr hx))⟩

/-- The BST bound predicate is equivalent to strictly increasing in-order keys. -/
theorem bstOk_iff_pairwise (t : Treap) :
    bstOk t = true ↔ List.Pairwise keyLt (inorder t) := by
  induction t with
  | nil => simp [bstOk, inorder]
  | node p s i pr ssz l r ih1 ih2 =>
    simp only [bstOk, Bool.and_eq_true, ih1, ih2, inorder]
    rw [List.pairwise_append]
    simp only [List.pairwise_cons, List.mem_cons]
    rw [allKeysLtB_iff, allKeysGtB_iff]
    constructor
    · rintro ⟨⟨⟨hlt, hgt⟩, hpl⟩, hpr⟩
      refine ⟨hpl, ⟨fun b hb => hgt b hb, hpr⟩, ?_⟩
      rintro a ha b (hb | hb)
      · subst hb; exact hlt a ha
      · have h1 : keyLt a ⟨p, s, i⟩ := hlt a ha
        have h2 : keyLt ⟨p, s, i⟩ b := hgt b hb
        exact keyLt_trans h1 h2
    · rintro ⟨hpl, ⟨hroot, hpr⟩, hcross⟩
      exact ⟨⟨⟨fun a ha => hcross a ha _ (Or.inl rfl), fun b hb => hroot b hb⟩, hpl⟩, hpr⟩

/-! ### Rotations and `updateSize` -/

theorem getPrio_updateSize (t : Treap) : getPrio (updateSize t) = getPrio t := by
  cases t <;> rfl

theorem heapOk_updateSize (t : Treap) : heapOk (updateSize t) = heapOk t := by
  cases t <;> rfl

theorem bstOk_updateSize (t : Treap) : bstOk (updateSize t) = bstOk t := by
  cases t <;> rfl

theorem rootPrioLe_updateSize (t : Treap) (b : Int) :
    rootPrioLe (updateSize t) b = rootPrioLe t b := by
  cases t <;> rfl

theorem rootPrioLe_iff (t : Treap) (b : Int) :
    rootPrioLe t b = true ↔ (t = .nil ∨ getPrio t ≤ b) := by
  cases t <;> simp [rootPrioLe, getPrio]

theorem rootPrioLe_mono (t : Treap) (b c : Int) (h : rootPrioLe t b = true)
    (hbc : b ≤ c) : rootPrioLe t c = true := by
  rw [rootPrioLe_iff] at *
  rcases h with h | h
  · exact Or.inl h
  · exact Or.inr (le_trans h hbc)

theorem inorder_rotateRight (t : Treap) : inorder (rotateRight t) = inorder t := by
  cases t with
  | nil => rfl
  | node py sy iy pry szy l c =>
    cases l with
    | nil => rfl
    | node px sx ix prx szx a b =>
      simp [rotateRight, inorder_updateSize, inorder, List.append_assoc]

theorem inorder_rotateLeft (t : Treap) : inorder (rotateLeft t) = inorder t := by
  cases t with
  | nil => rfl
  | node px sx ix prx szx a rsub =>
    cases rsub with
    | nil => rfl
    | node py sy iy pry szy b c =>
      simp [rotateLeft, inorder_updateSize, inorder, List.append_assoc]

theorem treapInsert_ne_nil (t : Treap) (a b c d : Int) :
    treapInsert t a b c d ≠ .nil := by
  cases t with
  | nil => simp [treapInsert]
  | node p s i pr ssz l r =>
    simp only [treapInsert]
    split
    · split
      · rename_i l2 hrot
        cases hl2 : treapInsert l a b c d with
        | nil => simp [hl2, rotateRight, updateSize]
        | node p2 s2 i2 pr2 ssz2 l2a l2b => simp [hl2, rotateRight, updateSize]
      · simp [updateSize]
    · split
      · rename_i r2 hrot
        cases hr2 : treapInsert r a b c d with
        | nil => simp [hr2, rotateLeft, updateSize]
        | node p2 s2 i2 pr2 ssz2 r2a r2b => simp [hr2, rotateLeft, updateSize]
      · simp [updateSize]

/-- Inserting adds exactly the new order to the book's contents. -/
theorem inorder_treapInsert_perm (t : Treap) (np ns nid npr : Int) :
    List.Perm (inorder (treapInsert t np ns nid npr))
      (⟨np, ns, nid⟩ :: inorder t) := by
  induction t with
  | nil => simp [treapInsert, inorder]
  | node p s i pr ssz l r ih1 ih2 =>
    simp only [treapInsert]
    split
    · rw [inorder_updateSize]
      have hsplit : inorder
          (if getPrio (treapInsert l np ns nid npr) > pr
           then rotateRight (.node p s i pr ssz (treapInsert l np ns nid npr) r)
           else .node p s i pr ssz (treapInsert l np ns nid npr) r) =
          inorder (treapInsert l np ns nid npr) ++ ⟨p, s, i⟩ :: inorder r := by
        split
        · rw [inorder_rotateRight]; rfl
        · rfl
      rw [hsplit, inorder]
      exact (ih1.append_right _).trans (List.Perm.refl _)
    · rw [inorder_updateSize]
      have hsplit : inorder
          (if getPrio (treapInsert r np ns nid npr) > pr
           then rotateLeft (.node p s i pr ssz l (treapInsert r np ns nid npr))
           else .node p s i pr ssz l (treapInsert r np ns nid npr)) =
          inorder l ++ ⟨p, s, i⟩ :: inorder (treapInsert r np ns nid npr) := by
        split
        · rw [inorder_rotateLeft]; rfl
        · rfl
      rw [hsplit, inorder]
      have step1 : List.Perm
          (inorder l ++ (⟨p, s, i⟩ : OrderData) :: inorder (treapInsert r np ns nid npr))
          (inorder l ++ (⟨p, s, i⟩ : OrderData) :: ⟨np, ns, nid⟩ :: inorder r) :=
        List.Perm.append_left _ (List.Perm.cons _ ih2)
      have step2 : List.Perm
          (inorder l ++ (⟨p, s, i⟩ : OrderData) :: ⟨np, ns, nid⟩ :: inorder r)
          (⟨np, ns, nid⟩ :: (inorder l ++ ⟨p, s, i⟩ :: inorder r)) := by
        have h1 : inorder l ++ (⟨p, s, i⟩ : OrderData) :: ⟨np, ns, nid⟩ :: inorder r
            = (inorder l ++ [⟨p, s, i⟩]) ++ ⟨np, ns, nid⟩ :: inorder r := by simp
        have h2 : inorder l ++ (⟨p, s, i⟩ : OrderData) :: inorder r
            = (inorder l ++ [⟨p, s, i⟩]) ++ inorder r := by simp
        rw [h1, h2]
        exact List.perm_middle
      exact step1.trans step2

/-! ### Insert preserves the three invariants -/

theorem sizeOk_updateSize_node (p s i pr ssz : Int) (l r : Treap)
    (hl : sizeOk l = true) (hr : sizeOk r = true) :
    sizeOk (updateSize (.node p s i pr ssz l r)) = true := by
  simp [updateSize, sizeOk_node_iff, hl, hr]

theorem updateSize_updateSize (t : Treap) : updateSize (updateSize t) = updateSize t := by
  cases t <;> simp [updateSize, getSize]

theorem childPrioLe_updateSize (t : Treap) (b : Int) :
    childPrioLe (updateSize t) b = childPrioLe t b := by
  cases t <;> rfl

theorem heapOk_node_iff (p s i pr ssz : Int) (l r : Treap) :
    heapOk (.node p s i pr ssz l r) = true ↔
      rootPrioLe l pr = true ∧ rootPrioLe r pr = true ∧
        heapOk l = true ∧ heapOk r = true := by
  simp [heapOk, Bool.and_eq_true, and_assoc]

theorem rootPrioLe_node (p s i pr ssz : Int) (l r : Treap) (b : Int) :
    rootPrioLe (.node p s i pr ssz l r) b = true ↔ pr ≤ b := by
  simp [rootPrioLe]

theorem bstOk_treapInsert (np ns nid npr : Int) (t : Treap) (hb : bstOk t = true)
    (hfresh : ∀ x ∈ inorder t, ¬(x.price = np ∧ x.insertion_id = nid)) :
    bstOk (treapInsert t np ns nid npr) = true := by
  induction t with
  | nil => simp [treapInsert, bstOk, allKeysLtB, allKeysGtB]
  | node p s i pr ssz l r ih1 ih2 =>
    simp only [bstOk, Bool.and_eq_true] at hb
    obtain ⟨⟨⟨hlt, hgt⟩, hbl⟩, hbr⟩ := hb
    simp only [treapInsert]
    split
    · rename_i hless
      rw [bstOk_updateSize]
      have hl2 : bstOk (treapInsert l np ns nid npr) = true :=
        ih1 hbl (fun x hx => hfresh x
          (by simp only [inorder, List.mem_append, List.mem_cons]; exact Or.inl hx))
      have hlt2 : allKeysLtB (treapInsert l np ns nid npr) p i = true := by
        rw [allKeysLtB_iff]
        intro x hx
        have hxm := (inorder_treapInsert_perm l np ns nid npr).mem_iff.mp hx
        rcases List.mem_cons.mp hxm with hx2 | hx2
        · subst hx2; exact hless
        · rw [allKeysLtB_iff] at hlt; exact hlt x hx2
      have hu : bstOk (.node p s i pr ssz (treapInsert l np ns nid npr) r) = true := by
        simp only [bstOk, Bool.and_eq_true]
        exact ⟨⟨⟨hlt2, hgt⟩, hl2⟩, hbr⟩
      split
      · rw [bstOk_iff_pairwise, inorder_rotateRight, ← bstOk_iff_pairwise]
        exact hu
      · exact hu
    · rename_i hge
      rw [bstOk_updateSize]
      have hrootne : ¬(p = np ∧ i = nid) := by
        have h := hfresh ⟨p, s, i⟩ (by simp [inorder])
        simpa using h
      have hgt0 : lessThan p i np nid = true := by
        rw [lessThan_iff]
        rw [lessThan_iff] at hge
        omega
      have hr2 : bstOk (treapInsert r np ns nid npr) = true :=
        ih2 hbr (fun x hx => hfresh x
          (by simp only [inorder, List.mem_append, List.mem_cons]; exact Or.inr (Or.inr hx)))
      have hgt2 : allKeysGtB (treapInsert r np ns nid npr) p i = true := by
        rw [allKeysGtB_iff]
        intro x hx
        have hxm := (inorder_treapInsert_perm r np ns nid npr).mem_iff.mp hx
        rcases List.mem_cons.mp hxm with hx2 | hx2
        · subst hx2; exact hgt0
        · rw [allKeysGtB_iff] at hgt; exact hgt x hx2
      have hu : bstOk (.node p s i pr ssz l (treapInsert r np ns nid npr)) = true := by
        simp only [bstOk, Bool.and_eq_true]
        exact ⟨⟨⟨hlt, hgt2⟩, hbl⟩, hr2⟩
      split
      · rw [bstOk_iff_pairwise, inorder_rotateLeft, ← bstOk_iff_pairwise]
        exact hu
      · exact hu

theorem sizeOk_treapInsert (np ns nid npr : Int) (t : Treap) (hs : sizeOk t = true) :
    sizeOk (treapInsert t np ns nid npr) = true := by
  induction t with
  | nil => simp [treapInsert, sizeOk, getSize]
  | node p s i pr ssz l r ih1 ih2 =>
    rw [sizeOk_node_iff] at hs
    obtain ⟨hssz, hsl, hsr⟩ := hs
    simp only [treapInsert]
    split
    · split
      · cases hl2s : treapInsert l np ns nid npr with
        | nil => exact absurd hl2s (treapInsert_ne_nil _ _ _ _ _)
        | node p2 s2 i2 pr2 ssz2 a b =>
          have hl2 := ih1 hsl
          rw [hl2s, sizeOk_node_iff] at hl2
          obtain ⟨h1, h2, h3⟩ := hl2
          simp only [rotateRight]
          rw [updateSize_updateSize]
          exact sizeOk_updateSize_node _ _ _ _ _ _ _ h2
            (sizeOk_updateSize_node _ _ _ _ _ _ _ h3 hsr)
      · exact sizeOk_updateSize_node _ _ _ _ _ _ _ (ih1 hsl) hsr
    · split
      · cases hr2s : treapInsert r np ns nid npr with
        | nil => exact absurd hr2s (treapInsert_ne_nil _ _ _ _ _)
        | node p2 s2 i2 pr2 ssz2 b c =>
          have hr2 := ih2 hsr
          rw [hr2s, sizeOk_node_iff] at hr2
          obtain ⟨h1, h2, h3⟩ := hr2
          simp only [rotateLeft]
          rw [updateSize_updateSize]
          exact sizeOk_updateSize_node _ _ _ _ _ _ _
            (sizeOk_updateSize_node _ _ _ _ _ _ _ hsl h2) h3
      · exact sizeOk_updateSize_node _ _ _ _ _ _ _ hsl (ih2 hsr)

/-- Treap insertion preserves the heap property.  The induction also tracks
the new root priority (the max of the old root priority and the inserted one)
and, when the inserted node bubbles up to the root, a bound on its children. -/
theorem heapOk_treapInsert_aux (np ns nid npr : Int) (t : Treap)
    (h : heapOk t = true) :
    heapOk (treapInsert t np ns nid npr) = true ∧
    getPrio (treapInsert t np ns nid npr)
      = (if t = .nil then npr else max (getPrio t) npr) ∧
    (t ≠ .nil → npr > getPrio t →
      childPrioLe (treapInsert t np ns nid npr) (getPrio t) = true) := by
  induction t with
  | nil =>
    refine ⟨by simp [treapInsert, heapOk, rootPrioLe], by simp [treapInsert, getPrio],
      fun hne _ => absurd rfl hne⟩
  | node p s i pr ssz l r ih1 ih2 =>
    simp only [heapOk, Bool.and_eq_true] at h
    obtain ⟨⟨⟨hlle, hrle⟩, hhl⟩, hhr⟩ := h
    simp only [treapInsert]
    split
    · -- insert into the left subtree
      obtain ⟨ihA, ihB, ihC⟩ := ih1 hhl
      by_cases hrot : getPrio (treapInsert l np ns nid npr) > pr
      · rw [if_pos hrot]
        have hnpr : npr > pr := by
          by_cases hln : l = .nil
          · rw [if_pos hln] at ihB; omega
          · rw [if_neg hln] at ihB
            have hlp : getPrio l ≤ pr := by
              rw [rootPrioLe_iff] at hlle
              rcases hlle with h | h
              · exact absurd h hln
              · exact h
            rcases max_choice (getPrio l) npr with hm | hm <;> omega
        cases hl2s : treapInsert l np ns nid npr with
        | nil => exact absurd hl2s (treapInsert_ne_nil _ _ _ _ _)
        | node p2 s2 i2 pr2 ssz2 a b =>
          have hpr2 : pr2 = getPrio (treapInsert l np ns nid npr) := by
            rw [hl2s]; rfl
          have hpr2gt : pr2 > pr := by rw [hpr2]; exact hrot
          have hab : rootPrioLe a pr = true ∧ rootPrioLe b pr = true := by
            by_cases hln : l = .nil
            · subst hln
              have : treapInsert Treap.nil np ns nid npr
                  = Treap.node np ns nid npr 1 .nil .nil := rfl
              rw [this] at hl2s
              simp only [Treap.node.injEq] at hl2s
              obtain ⟨e1, e2, e3, e4, e5, e6, e7⟩ := hl2s
              rw [← e6, ← e7]
              exact ⟨rfl, rfl⟩
            · have hlp : getPrio l ≤ pr := by
                rw [rootPrioLe_iff] at hlle
                rcases hlle with h | h
                · exact absurd h hln
                · exact h
              have hcl := ihC hln (by omega)
              rw [hl2s] at hcl
              simp only [childPrioLe, Bool.and_eq_true] at hcl
              exact ⟨rootPrioLe_mono _ _ _ hcl.1 hlp, rootPrioLe_mono _ _ _ hcl.2 hlp⟩
          have hl2comp := ihA
          rw [hl2s] at hl2comp
          rw [heapOk_node_iff] at hl2comp
          obtain ⟨hapr2, hbpr2, hha, hhb⟩ := hl2comp
          simp only [rotateRight]
          refine ⟨?_, ?_, ?_⟩
          · rw [heapOk_updateSize, heapOk_updateSize, heapOk_node_iff]
            refine ⟨hapr2, ?_, hha, ?_⟩
            · rw [rootPrioLe_updateSize, rootPrioLe_node]
              omega
            · rw [heapOk_updateSize, heapOk_node_iff]
              exact ⟨hab.2, hrle, hhb, hhr⟩
          · rw [getPrio_updateSize, getPrio_updateSize]
            have hne : (Treap.node p s i pr ssz l r) ≠ Treap.nil := by simp
            rw [if_neg hne]
            show pr2 = max pr npr
            by_cases hln : l = .nil
            · rw [if_pos hln] at ihB
              rw [hpr2, ihB]
              omega
            · rw [if_neg hln] at ihB
              have hlp : getPrio l ≤ pr := by
                rw [rootPrioLe_iff] at hlle
                rcases hlle with h | h
                · exact absurd h hln
                · exact h
              rw [hpr2, ihB]
              rcases max_choice (getPrio l) npr with hm | hm <;>
                rcases max_choice pr npr with hm2 | hm2 <;> omega
          · intro _ _
            rw [childPrioLe_updateSize, childPrioLe_updateSize]
            simp only [childPrioLe, Bool.and_eq_true]
            refine ⟨hab.1, ?_⟩
            rw [rootPrioLe_updateSize, rootPrioLe_node]
            show pr ≤ getPrio (Treap.node p s i pr ssz l r)
            exact le_refl pr
      · rw [if_neg hrot]
        have hl2le : getPrio (treapInsert l np ns nid npr) ≤ pr := by omega
        have hnprle : npr ≤ pr := by
          by_cases hln : l = .nil
          · rw [if_pos hln] at ihB; omega
          · rw [if_neg hln] at ihB
            have := le_max_right (getPrio l) npr
            omega
        refine ⟨?_, ?_, ?_⟩
        · rw [heapOk_updateSize, heapOk_node_iff]
          refine ⟨?_, hrle, ihA, hhr⟩
          rw [rootPrioLe_iff]
          exact Or.inr hl2le
        · rw [getPrio_updateSize]
          have hne : (Treap.node p s i pr ssz l r) ≠ Treap.nil := by simp
          rw [if_neg hne]
          show pr = max pr npr
          omega
        · intro _ hgt
          exact absurd hgt (by show ¬ npr > pr; omega)
    · -- insert into the right subtree
      obtain ⟨ihA, ihB, ihC⟩ := ih2 hhr
      by_cases hrot : getPrio (treapInsert r np ns nid npr) > pr
      · rw [if_pos hrot]
        have hnpr : npr > pr := by
          by_cases hrn : r = .nil
          · rw [if_pos hrn] at ihB; omega
          · rw [if_neg hrn] at ihB
            have hrp : getPrio r ≤ pr := by
              rw [rootPrioLe_iff] at hrle
              rcases hrle with h | h
              · exact absurd h hrn
              · exact h
            rcases max_choice (getPrio r) npr with hm | hm <;> omega
        cases hr2s : treapInsert r np ns nid npr with
        | nil => exact absurd hr2s (treapInsert_ne_nil _ _ _ _ _)
        | node p2 s2 i2 pr2 ssz2 b c =>
          have hpr2 : pr2 = getPrio (treapInsert r np ns nid npr) := by
            rw [hr2s]; rfl
          have hpr2gt : pr2 > pr := by rw [hpr2]; exact hrot
          have hbc : rootPrioLe b pr = true ∧ rootPrioLe c pr = true := by
            by_cases hrn : r = .nil
            · subst hrn
              have : treapInsert Treap.nil np ns nid npr
                  = Treap.node np ns nid npr 1 .nil .nil := rfl
              rw [this] at hr2s
              simp only [Treap.node.injEq] at hr2s
              obtain ⟨e1, e2, e3, e4, e5, e6, e7⟩ := hr2s
              rw [← e6, ← e7]
              exact ⟨rfl, rfl⟩
            · have hrp : getPrio r ≤ pr := by
                rw [rootPrioLe_iff] at hrle
                rcases hrle with h | h
                · exact absurd h hrn
                · exact h
              have hcr := ihC hrn (by omega)
              rw [hr2s] at hcr
              simp only [childPrioLe, Bool.and_eq_true] at hcr
              exact ⟨rootPrioLe_mono _ _ _ hcr.1 hrp, rootPrioLe_mono _ _ _ hcr.2 hrp⟩
          have hr2comp := ihA
          rw [hr2s] at hr2comp
          rw [heapOk_node_iff] at hr2comp
          obtain ⟨hbpr2, hcpr2, hhb, hhc⟩ := hr2comp
          simp only [rotateLeft]
          refine ⟨?_, ?_, ?_⟩
          · rw [heapOk_updateSize, heapOk_updateSize, heapOk_node_iff]
            refine ⟨?_, hcpr2, ?_, hhc⟩
            · rw [rootPrioLe_updateSize, rootPrioLe_node]
              omega
            · rw [heapOk_updateSize, heapOk_node_iff]
              exact ⟨hlle, hbc.1, hhl, hhb⟩
          · rw [getPrio_updateSize, getPrio_updateSize]
            have hne : (Treap.node p s i pr ssz l r) ≠ Treap.nil := by simp
            rw [if_neg hne]
            show pr2 = max pr npr
            by_cases hrn : r = .nil
            · rw [if_pos hrn] at ihB
              rw [hpr2, ihB]
              omega
            · rw [if_neg hrn] at ihB
              have hrp : getPrio r ≤ pr := by
                rw [rootPrioLe_iff] at hrle
                rcases hrle with h | h
                · exact absurd h hrn
                · exact h
              rw [hpr2, ihB]
              rcases max_choice (getPrio r) npr with hm | hm <;>
                rcases max_choice pr npr with hm2 | hm2 <;> omega
          · intro _ _
            rw [childPrioLe_updateSize, childPrioLe_updateSize]
            simp only [childPrioLe, Bool.and_eq_true]
            refine ⟨?_, hbc.2⟩
            rw [rootPrioLe_updateSize, rootPrioLe_node]
            show pr ≤ getPrio (Treap.node p s i pr ssz l r)
            exact le_refl pr
      · rw [if_neg hrot]
        have hr2le : getPrio (treapInsert r np ns nid npr) ≤ pr := by omega
        have hnprle : npr ≤ pr := by
          by_cases hrn : r = .nil
          · rw [if_pos hrn] at ihB; omega
          · rw [if_neg hrn] at ihB
            have := le_max_right (getPrio r) npr
            omega
        refine ⟨?_, ?_, ?_⟩
        · rw [heapOk_updateSize, heapOk_node_iff]
          refine ⟨hlle, ?_, hhl, ihA⟩
          rw [rootPrioLe_iff]
          exact Or.inr hr2le
        · rw [getPrio_updateSize]
          have hne : (Treap.node p s i pr ssz l r) ≠ Treap.nil := by simp
          rw [if_neg hne]
          show pr = max pr npr
          omega
        · intro _ hgt
          exact absurd hgt (by show ¬ npr > pr; omega)

theorem heapOk_treapInsert (np ns nid npr : Int) (t : Treap) (h : heapOk t = true) :
    heapOk (treapInsert t np ns nid npr) = true :=
  (heapOk_treapInsert_aux np ns nid npr t h).1

/-! ### Merge preserves contents and the invariants -/

theorem inorder_treapMerge (L : Treap) :
    ∀ R, inorder (treapMerge L R) = inorder L ++ inorder R := by
  induction L with
  | nil => intro R; simp [treapMerge, inorder]
  | node pl sl il prl szl ll rl ih1 ih2 =>
    intro R
    induction R with
    | nil => simp [treapMerge, inorder]
    | node pr2 sr ir prr szr lr rr ih3 ih4 =>
      rw [treapMerge]
      split
      · rw [inorder_updateSize]
        simp only [inorder]
        rw [ih2]
        simp [inorder, List.append_assoc]
      · rw [inorder_updateSize]
        simp only [inorder]
        rw [ih3]
        simp [inorder, List.append_assoc]

theorem treapMerge_nil_right (L : Treap) : treapMerge L .nil = L := by
  cases L <;> simp [treapMerge]

theorem sizeOk_treapMerge (L : Treap) :
    ∀ R, sizeOk L = true → sizeOk R = true → sizeOk (treapMerge L R) = true := by
  induction L with
  | nil => intro R _ hR; simpa [treapMerge] using hR
  | node pl sl il prl szl ll rl ih1 ih2 =>
    intro R hL
    induction R with
    | nil => intro _; simpa [treapMerge] using hL
    | node pr2 sr ir prr szr lr rr ih3 ih4 =>
      intro hR
      rw [sizeOk_node_iff] at hL hR
      rw [treapMerge]
      split
      · exact sizeOk_updateSize_node _ _ _ _ _ _ _ hL.2.1
          (ih2 _ hL.2.2 (by rw [sizeOk_node_iff]; exact hR))
      · refine sizeOk_updateSize_node _ _ _ _ _ _ _ ?_ hR.2.2
        exact ih3 hR.2.1

theorem rootPrioLe_treapMerge (L : Treap) :
    ∀ R b, rootPrioLe L b = true → rootPrioLe R b = true →
      rootPrioLe (treapMerge L R) b = true := by
  induction L with
  | nil => intro R b _ hR; simpa [treapMerge] using hR
  | node pl sl il prl szl ll rl ih1 ih2 =>
    intro R b hL
    induction R with
    | nil => intro _; simpa [treapMerge] using hL
    | node pr2 sr ir prr szr lr rr ih3 ih4 =>
      intro hR
      rw [treapMerge]
      split
      · rw [rootPrioLe_updateSize, rootPrioLe_node]
        rw [rootPrioLe_node] at hL
        exact hL
      · rw [rootPrioLe_updateSize, rootPrioLe_node]
        rw [rootPrioLe_node] at hR
        exact hR

theorem heapOk_treapMerge (L : Treap) :
    ∀ R, heapOk L = true → heapOk R = true → heapOk (treapMerge L R) = true := by
  induction L with
  | nil => intro R _ hR; simpa [treapMerge] using hR
  | node pl sl il prl szl ll rl ih1 ih2 =>
    intro R hL
    induction R with
    | nil => intro _; simpa [treapMerge] using hL
    | node pr2 sr ir prr szr lr rr ih3 ih4 =>
      intro hR
      have hLc := (heapOk_node_iff pl sl il prl szl ll rl).mp hL
      have hRc := (heapOk_node_iff pr2 sr ir prr szr lr rr).mp hR
      rw [treapMerge]
      split
      · rename_i hgt
        rw [heapOk_updateSize, heapOk_node_iff]
        refine ⟨hLc.1, ?_, hLc.2.2.1, ih2 _ hLc.2.2.2 hR⟩
        apply rootPrioLe_treapMerge
        · exact hLc.2.1
        · rw [rootPrioLe_node]; omega
      · rename_i hgt
        rw [heapOk_updateSize, heapOk_node_iff]
        refine ⟨?_, hRc.2.1, ih3 hRc.2.2.1, hRc.2.2.2⟩
        apply rootPrioLe_treapMerge
        · rw [rootPrioLe_node]; omega
        · exact hRc.1

/-! ### Split: explicit branch equations and preservation -/

theorem treapSplit_node_le (p s i pr ssz : Int) (l r : Treap) (kp ki : Int)
    (hc : (lessThan p i kp ki || (p == kp && i == ki)) = true) :
    treapSplit (.node p s i pr ssz l r) kp ki
      = (updateSize (.node p s i pr ssz l (treapSplit r kp ki).1),
         (treapSplit r kp ki).2) := by
  rw [treapSplit, if_pos hc]

theorem treapSplit_node_gt (p s i pr ssz : Int) (l r : Treap) (kp ki : Int)
    (hc : ¬ (lessThan p i kp ki || (p == kp && i == ki)) = true) :
    treapSplit (.node p s i pr ssz l r) kp ki
      = ((treapSplit l kp ki).1,
         updateSize (.node p s i pr ssz (treapSplit l kp ki).2 r)) := by
  rw [treapSplit, if_neg hc]

theorem sizeOk_treapSplit (t : Treap) (kp ki : Int) (h : sizeOk t = true) :
    sizeOk (treapSplit t kp ki).1 = true ∧ sizeOk (treapSplit t kp ki).2 = true := by
  induction t with
  | nil => simp [treapSplit, sizeOk]
  | node p s i pr ssz l r ih1 ih2 =>
    rw [sizeOk_node_iff] at h
    by_cases hc : (lessThan p i kp ki || (p == kp && i == ki)) = true
    · rw [treapSplit_node_le _ _ _ _ _ _ _ _ _ hc]
      obtain ⟨ihl, ihr⟩ := ih2 h.2.2
      exact ⟨sizeOk_updateSize_node p s i pr ssz l (treapSplit r kp ki).1 h.2.1 ihl, ihr⟩
    · rw [treapSplit_node_gt _ _ _ _ _ _ _ _ _ hc]
      obtain ⟨ihl, ihr⟩ := ih1 h.2.1
      exact ⟨ihl, sizeOk_updateSize_node p s i pr ssz (treapSplit l kp ki).2 r ihr h.2.2⟩

theorem heapOk_treapSplit (t : Treap) (kp ki : Int) (h : heapOk t = true) :
    (heapOk (treapSplit t kp ki).1 = true ∧ heapOk (treapSplit t kp ki).2 = true) ∧
    (∀ b, rootPrioLe t b = true →
      rootPrioLe (treapSplit t kp ki).1 b = true ∧
      rootPrioLe (treapSplit t kp ki).2 b = true) := by
  induction t with
  | nil => simp [treapSplit, heapOk, rootPrioLe]
  | node p s i pr ssz l r ih1 ih2 =>
    have hcp := (heapOk_node_iff p s i pr ssz l r).mp h
    by_cases hc : (lessThan p i kp ki || (p == kp && i == ki)) = true
    · rw [treapSplit_node_le _ _ _ _ _ _ _ _ _ hc]
      obtain ⟨⟨ih2a, ih2b⟩, ih2c⟩ := ih2 hcp.2.2.2
      refine ⟨⟨?_, ih2b⟩, ?_⟩
      · rw [heapOk_updateSize, heapOk_node_iff]
        exact ⟨hcp.1, (ih2c pr hcp.2.1).1, hcp.2.2.1, ih2a⟩
      · intro b hb
        rw [rootPrioLe_node] at hb
        refine ⟨?_, ?_⟩
        · rw [rootPrioLe_updateSize, rootPrioLe_node]
          exact hb
        · exact (ih2c b (rootPrioLe_mono _ _ _ hcp.2.1 hb)).2
    · rw [treapSplit_node_gt _ _ _ _ _ _ _ _ _ hc]
      obtain ⟨⟨ih1a, ih1b⟩, ih1c⟩ := ih1 hcp.2.2.1
      refine ⟨⟨ih1a, ?_⟩, ?_⟩
      · rw [heapOk_updateSize, heapOk_node_iff]
        exact ⟨(ih1c pr hcp.1).2, hcp.2.1, ih1b, hcp.2.2.2⟩
      · intro b hb
        rw [rootPrioLe_node] at hb
        refine ⟨?_, ?_⟩
        · exact (ih1c b (rootPrioLe_mono _ _ _ hcp.1 hb)).1
        · rw [rootPrioLe_updateSize, rootPrioLe_node]
          exact hb

/-- `true` iff the payload's key is at most `(kp, ki)` — the membership test of
the left part of a split. -/
def keyLeB (x : OrderData) (kp ki : Int) : Bool :=
  lessThan x.price x.insertion_id kp ki || (x.price == kp && x.insertion_id == ki)

theorem keyLeB_iff (x : OrderData) (kp ki : Int) :
    keyLeB x kp ki = true ↔
      (x.price < kp ∨ (x.price = kp ∧ x.insertion_id ≤ ki)) := by
  unfold keyLeB
  simp only [Bool.or_eq_true, Bool.and_eq_true, beq_iff_eq, lessThan_iff]
  omega

/-- On a BST, split partitions the in-order list by comparison with the key:
the left part is exactly the orders with key at most `(kp, ki)`, the right
part exactly those greater. -/
theorem inorder_treapSplit (t : Treap) (kp ki : Int) (hb : bstOk t = true) :
    inorder (treapSplit t kp ki).1 = (inorder t).filter (fun x => keyLeB x kp ki) ∧
    inorder (treapSplit t kp ki).2 = (inorder t).filter (fun x => !(keyLeB x kp ki)) := by
  induction t with
  | nil => simp [treapSplit, inorder]
  | node p s i pr ssz l r ih1 ih2 =>
    simp only [bstOk, Bool.and_eq_true] at hb
    obtain ⟨⟨⟨hlt, hgt⟩, hbl⟩, hbr⟩ := hb
    rw [allKeysLtB_iff] at hlt
    rw [allKeysGtB_iff] at hgt
    by_cases hc : (lessThan p i kp ki || (p == kp && i == ki)) = true
    · rw [treapSplit_node_le _ _ _ _ _ _ _ _ _ hc]
      obtain ⟨e1, e2⟩ := ih2 hbr
      have hroot : keyLeB ⟨p, s, i⟩ kp ki = true := hc
      have hrootarith : p < kp ∨ (p = kp ∧ i ≤ ki) := (keyLeB_iff _ _ _).mp hroot
      have hl_all : ∀ x ∈ inorder l, keyLeB x kp ki = true := by
        intro x hx
        have h1 := (lessThan_iff _ _ _ _).mp (hlt x hx)
        rw [keyLeB_iff]
        omega
      constructor
      · rw [inorder_updateSize]
        simp only [inorder]
        rw [e1, List.filter_append, List.filter_cons, List.filter_eq_self.mpr hl_all]
        simp [hroot]
      · simp only [inorder]
        rw [e2, List.filter_append, List.filter_cons]
        have h1 : (inorder l).filter (fun x => !(keyLeB x kp ki)) = [] := by
          rw [List.filter_eq_nil_iff]
          intro x hx
          simp [hl_all x hx]
        rw [h1]
        simp [hroot]
    · rw [treapSplit_node_gt _ _ _ _ _ _ _ _ _ hc]
      obtain ⟨e1, e2⟩ := ih1 hbl
      have hroot : keyLeB ⟨p, s, i⟩ kp ki = false := by
        rw [Bool.eq_false_iff]
        exact hc
      have hrootarith : ¬(p < kp ∨ (p = kp ∧ i ≤ ki)) := by
        intro hcontra
        rw [Bool.eq_false_iff] at hroot
        exact hroot ((keyLeB_iff _ _ _).mpr hcontra)
      have hr_none : ∀ x ∈ inorder r, keyLeB x kp ki = false := by
        intro x hx
        have h1 := (lessThan_iff _ _ _ _).mp (hgt x hx)
        rw [Bool.eq_false_iff, Ne, keyLeB_iff]
        omega
      constructor
      · simp only [inorder]
        rw [e1, List.filter_append, List.filter_cons]
        have h1 : (inorder r).filter (fun x => keyLeB x kp ki) = [] := by
          rw [List.filter_eq_nil_iff]
          intro x hx
          simp [hr_none x hx]
        rw [h1]
        simp [hroot]
      · rw [inorder_updateSize]
        simp only [inorder]
        rw [e2, List.filter_append, List.filter_cons]
        have h1 : (inorder r).filter (fun x => !(keyLeB x kp ki)) = inorder r := by
          rw [List.filter_eq_self]
          intro x hx
          simp [hr_none x hx]
        rw [h1]
        simp [hroot]

/-! ### Remove by key -/

theorem inorder_treapRemoveKey_sublist (t : Treap) (kp ki : Int) :
    (inorder (treapRemoveKey t kp ki)).Sublist (inorder t) := by
  induction t with
  | nil => simp [treapRemoveKey]
  | node p s i pr ssz l r ih1 ih2 =>
    rw [treapRemoveKey]
    split
    · rw [inorder_treapMerge]
      simp only [inorder]
      exact List.Sublist.append (List.Sublist.refl _) (List.sublist_cons_self _ _)
    · split
      · rw [inorder_updateSize]
        simp only [inorder]
        exact List.Sublist.append ih1 (List.Sublist.refl _)
      · rw [inorder_updateSize]
        simp only [inorder]
        exact List.Sublist.append (List.Sublist.refl _) (List.Sublist.cons₂ _ ih2)

theorem sizeOk_treapRemoveKey (t : Treap) (kp ki : Int) (h : sizeOk t = true) :
    sizeOk (treapRemoveKey t kp ki) = true := by
  induction t with
  | nil => simp [treapRemoveKey, sizeOk]
  | node p s i pr ssz l r ih1 ih2 =>
    rw [sizeOk_node_iff] at h
    rw [treapRemoveKey]
    split
    · exact sizeOk_treapMerge _ _ h.2.1 h.2.2
    · split
      · exact sizeOk_updateSize_node p s i pr ssz (treapRemoveKey l kp ki) r
          (ih1 h.2.1) h.2.2
      · exact sizeOk_updateSize_node p s i pr ssz l (treapRemoveKey r kp ki)
          h.2.1 (ih2 h.2.2)

theorem heapOk_treapRemoveKey (t : Treap) (kp ki : Int) (h : heapOk t = true) :
    heapOk (treapRemoveKey t kp ki) = true ∧
    ∀ b, rootPrioLe t b = true → rootPrioLe (treapRemoveKey t kp ki) b = true := by
  induction t with
  | nil => simp [treapRemoveKey, heapOk, rootPrioLe]
  | node p s i pr ssz l r ih1 ih2 =>
    have hcp := (heapOk_node_iff p s i pr ssz l r).mp h
    by_cases hc : (p == kp && i == ki) = true
    · rw [treapRemoveKey, if_pos hc]
      refine ⟨heapOk_treapMerge _ _ hcp.2.2.1 hcp.2.2.2, ?_⟩
      intro b hb
      rw [rootPrioLe_node] at hb
      exact rootPrioLe_treapMerge _ _ _ (rootPrioLe_mono _ _ _ hcp.1 hb)
        (rootPrioLe_mono _ _ _ hcp.2.1 hb)
    · by_cases hc2 : lessThan kp ki p i = true
      · rw [treapRemoveKey, if_neg hc, if_pos hc2]
        obtain ⟨ihA, ihB⟩ := ih1 hcp.2.2.1
        refine ⟨?_, ?_⟩
        · rw [heapOk_updateSize, heapOk_node_iff]
          exact ⟨ihB pr hcp.1, hcp.2.1, ihA, hcp.2.2.2⟩
        · intro b hb
          rw [rootPrioLe_updateSize, rootPrioLe_node]
          rw [rootPrioLe_node] at hb
          exact hb
      · rw [treapRemoveKey, if_neg hc, if_neg hc2]
        obtain ⟨ihA, ihB⟩ := ih2 hcp.2.2.2
        refine ⟨?_, ?_⟩
        · rw [heapOk_updateSize, heapOk_node_iff]
          exact ⟨hcp.1, ihB pr hcp.2.1, hcp.2.2.1, ihA⟩
        · intro b hb
          rw [rootPrioLe_updateSize, rootPrioLe_node]
          rw [rootPrioLe_node] at hb
          exact hb

/-! ### Remove by rank -/

theorem inorder_removeByRank_sublist (t : Treap) (rk : Int) :
    (inorder (removeByRank t rk)).Sublist (inorder t) := by
  induction t generalizing rk with
  | nil => simp [removeByRank]
  | node p s i pr ssz l r ih1 ih2 =>
    rw [removeByRank]
    split
    · rw [inorder_updateSize]
      simp only [inorder]
      exact List.Sublist.append (ih1 rk) (List.Sublist.refl _)
    · split
      · rw [inorder_treapMerge]
        simp only [inorder]
        exact List.Sublist.append (List.Sublist.refl _) (List.sublist_cons_self _ _)
      · rw [inorder_updateSize]
        simp only [inorder]
        exact List.Sublist.append (List.Sublist.refl _) (List.Sublist.cons₂ _ (ih2 _))

theorem sizeOk_removeByRank (t : Treap) (rk : Int) (h : sizeOk t = true) :
    sizeOk (removeByRank t rk) = true := by
  induction t generalizing rk with
  | nil => simp [removeByRank, sizeOk]
  | node p s i pr ssz l r ih1 ih2 =>
    rw [sizeOk_node_iff] at h
    rw [removeByRank]
    split
    · exact sizeOk_updateSize_node p s i pr ssz (removeByRank l rk) r
        (ih1 rk h.2.1) h.2.2
    · split
      · exact sizeOk_treapMerge _ _ h.2.1 h.2.2
      · exact sizeOk_updateSize_node p s i pr ssz l (removeByRank r (rk - getSize l - 1))
          h.2.1 (ih2 _ h.2.2)

theorem heapOk_removeByRank (t : Treap) (rk : Int) (h : heapOk t = true) :
    heapOk (removeByRank t rk) = true ∧
    ∀ b, rootPrioLe t b = true → rootPrioLe (removeByRank t rk) b = true := by
  induction t generalizing rk with
  | nil => simp [removeByRank, heapOk, rootPrioLe]
  | node p s i pr ssz l r ih1 ih2 =>
    have hcp := (heapOk_node_iff p s i pr ssz l r).mp h
    by_cases hc : rk < getSize l
    · rw [removeByRank, if_pos hc]
      obtain ⟨ihA, ihB⟩ := ih1 rk hcp.2.2.1
      refine ⟨?_, ?_⟩
      · rw [heapOk_updateSize, heapOk_node_iff]
        exact ⟨ihB pr hcp.1, hcp.2.1, ihA, hcp.2.2.2⟩
      · intro b hb
        rw [rootPrioLe_updateSize, rootPrioLe_node]
        rw [rootPrioLe_node] at hb
        exact hb
    · by_cases hc2 : (rk == getSize l) = true
      · rw [removeByRank, if_neg hc, if_pos hc2]
        refine ⟨heapOk_treapMerge _ _ hcp.2.2.1 hcp.2.2.2, ?_⟩
        intro b hb
        rw [rootPrioLe_node] at hb
        exact rootPrioLe_treapMerge _ _ _ (rootPrioLe_mono _ _ _ hcp.1 hb)
          (rootPrioLe_mono _ _ _ hcp.2.1 hb)
      · rw [removeByRank, if_neg hc, if_neg hc2]
        obtain ⟨ihA, ihB⟩ := ih2 (rk - getSize l - 1) hcp.2.2.2
        refine ⟨?_, ?_⟩
        · rw [heapOk_updateSize, heapOk_node_iff]
          exact ⟨hcp.1, ihB pr hcp.2.1, hcp.2.2.1, ihA⟩
        · intro b hb
          rw [rootPrioLe_updateSize, rootPrioLe_node]
          rw [rootPrioLe_node] at hb
          exact hb

/-- Out-of-range rank removal returns the tree unchanged, bit for bit. -/
theorem removeByRank_out_of_range (t : Treap) (rk : Int) (h : sizeOk t = true)
    (hrk : rk < 0 ∨ getSize t ≤ rk) : removeByRank t rk = t := by
  induction t generalizing rk with
  | nil => simp [removeByRank]
  | node p s i pr ssz l r ih1 ih2 =>
    rw [sizeOk_node_iff] at h
    obtain ⟨h1, h2, h3⟩ := h
    have hl0 : 0 ≤ getSize l := getSize_nonneg l h2
    have hr0 : 0 ≤ getSize r := getSize_nonneg r h3
    rw [getSize] at hrk
    rw [removeByRank]
    rcases hrk with hneg | hbig
    · rw [if_pos (show rk < getSize l by omega)]
      rw [ih1 rk h2 (Or.inl hneg), updateSize, ← h1]
    · have hrk2 : ¬ (rk < getSize l) := by omega
      have hrk3 : ¬ ((rk == getSize l) = true) := by
        rw [beq_iff_eq]
        omega
      rw [if_neg hrk2, if_neg hrk3]
      rw [ih2 (rk - getSize l - 1) h3 (Or.inr (by omega)), updateSize, ← h1]

/-- In-range rank removal deletes exactly the entry at that rank from the
in-order listing. -/
theorem inorder_removeByRank (t : Treap) (rk : Int) (h : sizeOk t = true)
    (h0 : 0 ≤ rk) (hlt : rk < getSize t) :
    inorder (removeByRank t rk) = (inorder t).eraseIdx rk.toNat := by
  induction t generalizing rk with
  | nil =>
    rw [getSize] at hlt
    omega
  | node p s i pr ssz l r ih1 ih2 =>
    rw [sizeOk_node_iff] at h
    obtain ⟨h1, h2, h3⟩ := h
    have hllen : getSize l = ((inorder l).length : Int) := by
      rw [length_inorder, ← getSize_eq_nodeCount l h2]
    have hrlen : getSize r = ((inorder r).length : Int) := by
      rw [length_inorder, ← getSize_eq_nodeCount r h3]
    rw [getSize] at hlt
    rw [removeByRank]
    by_cases hc : rk < getSize l
    · rw [if_pos hc, inorder_updateSize]
      simp only [inorder]
      rw [ih1 rk h2 h0 hc]
      rw [List.eraseIdx_append_of_lt_length (by omega) (⟨p, s, i⟩ :: inorder r)]
    · by_cases hc2 : (rk == getSize l) = true
      · rw [if_neg hc, if_pos hc2, inorder_treapMerge]
        rw [beq_iff_eq] at hc2
        simp only [inorder]
        have he : rk.toNat = (inorder l).length := by omega
        rw [he, List.eraseIdx_append_of_length_le (le_refl _)]
        simp
      · rw [if_neg hc, if_neg hc2, inorder_updateSize]
        rw [beq_iff_eq] at hc2
        simp only [inorder]
        rw [ih2 (rk - getSize l - 1) h3 (by omega) (by omega)]
        rw [List.eraseIdx_append_of_length_le (by omega : (inorder l).length ≤ rk.toNat)]
        have he : rk.toNat - (inorder l).length = (rk - getSize l - 1).toNat + 1 := by
          omega
        rw [he, List.eraseIdx_cons_succ]

/-! ### Rank lookup is exactly in-order indexing -/

/-- On a size-consistent tree, `getByRank` is total: rank `r` in `[0, size)`
returns the `r`-th order of the in-order (rank) listing, every other rank
returns `none`. -/
theorem getByRank_spec (t : Treap) (h : sizeOk t = true) (rk : Int) :
    getByRank t rk =
      if 0 ≤ rk ∧ rk < getSize t then (inorder t)[rk.toNat]? else none := by
  induction t generalizing rk with
  | nil =>
    rw [getByRank]
    simp only [inorder, List.getElem?_nil, getSize]
    rw [ite_self]
  | node p s i pr ssz l r ih1 ih2 =>
    rw [sizeOk_node_iff] at h
    obtain ⟨h1, h2, h3⟩ := h
    have hllen : getSize l = ((inorder l).length : Int) := by
      rw [length_inorder, ← getSize_eq_nodeCount l h2]
    have hrlen : getSize r = ((inorder r).length : Int) := by
      rw [length_inorder, ← getSize_eq_nodeCount r h3]
    rw [getByRank]
    by_cases hc : rk < getSize l
    · rw [if_pos hc, ih1 h2 rk]
      simp only [inorder, getSize_node]
      by_cases h0 : 0 ≤ rk
      · rw [if_pos ⟨h0, hc⟩, if_pos ⟨h0, by omega⟩]
        rw [List.getElem?_append_left (by omega)]
      · rw [if_neg (by omega), if_neg (by omega)]
    · by_cases hc2 : (rk == getSize l) = true
      · rw [if_neg hc, if_pos hc2]
        rw [beq_iff_eq] at hc2
        have h0 : 0 ≤ rk := by omega
        rw [if_pos ⟨h0, by rw [getSize_node]; omega⟩]
        simp only [inorder]
        rw [List.getElem?_append_right (by omega)]
        have he : rk.toNat - (inorder l).length = 0 := by omega
        rw [he]
        rw [List.getElem?_cons_zero]
      · rw [if_neg hc, if_neg hc2, ih2 h3 _]
        rw [beq_iff_eq] at hc2
        by_cases h0 : 0 ≤ rk
        · have hgl : getSize l < rk := by omega
          simp only [inorder, getSize_node]
          by_cases hin : rk - getSize l - 1 < getSize r
          · rw [if_pos ⟨by omega, hin⟩, if_pos ⟨h0, by omega⟩]
            rw [List.getElem?_append_right (by omega)]
            have he : rk.toNat - (inorder l).length = (rk - getSize l - 1).toNat + 1 := by
              omega
            rw [he, List.getElem?_cons_succ]
          · rw [if_neg (by omega), if_neg (by omega)]
        · exact absurd (by omega) h0

/-! ### The in-place quantity write of `buy` -/

theorem rootPrioLe_setShares (t : Treap) (rk v b : Int) :
    rootPrioLe (setShares t rk v) b = rootPrioLe t b := by
  cases t with
  | nil => rfl
  | node p s i pr ssz l r =>
    rw [setShares]
    split
    · rfl
    · split <;> rfl

theorem heapOk_setShares (t : Treap) (rk v : Int) :
    heapOk (setShares t rk v) = heapOk t := by
  induction t generalizing rk with
  | nil => rfl
  | node p s i pr ssz l r ih1 ih2 =>
    rw [setShares]
    split
    · simp only [heapOk]
      rw [rootPrioLe_setShares, ih1]
    · split
      · rfl
      · simp only [heapOk]
        rw [rootPrioLe_setShares, ih2]

theorem sizeOk_setShares (t : Treap) (rk v : Int) :
    sizeOk (setShares t rk v) = sizeOk t := by
  induction t generalizing rk with
  | nil => rfl
  | node p s i pr ssz l r ih1 ih2 =>
    rw [setShares]
    split
    · simp only [sizeOk]
      rw [getSize_setShares, ih1]
    · split
      · rfl
      · simp only [sizeOk]
        rw [getSize_setShares, ih2]

/-- `setShares` changes quantities only: the `(price, sequence)` keys of the
book, in order, are untouched. -/
theorem inorder_setShares_keys (t : Treap) (rk v : Int) :
    (inorder (setShares t rk v)).map (fun x => (x.price, x.insertion_id))
      = (inorder t).map (fun x => (x.price, x.insertion_id)) := by
  induction t generalizing rk with
  | nil => rfl
  | node p s i pr ssz l r ih1 ih2 =>
    rw [setShares]
    split
    · simp only [inorder, List.map_append, List.map_cons]
      rw [ih1]
    · split
      · simp only [inorder, List.map_append, List.map_cons]
      · simp only [inorder, List.map_append, List.map_cons]
        rw [ih2]

/-- Writing the quantity at rank 0 rewrites the head order of the book. -/
theorem inorder_setShares_zero (t : Treap) (v : Int) (h : sizeOk t = true) :
    inorder (setShares t 0 v) =
      (match inorder t with
       | [] => []
       | o :: rest => ⟨o.price, v, o.insertion_id⟩ :: rest) := by
  induction t with
  | nil => rfl
  | node p s i pr ssz l r ih1 ih2 =>
    rw [sizeOk_node_iff] at h
    obtain ⟨h1, h2, h3⟩ := h
    have hllen : getSize l = ((inorder l).length : Int) := by
      rw [length_inorder, ← getSize_eq_nodeCount l h2]
    rw [setShares]
    by_cases hc : (0 : Int) < getSize l
    · rw [if_pos hc]
      simp only [inorder]
      rw [ih1 h2]
      cases hl : inorder l with
      | nil =>
        rw [hl] at hllen
        simp at hllen
        omega
      | cons o rest => rfl
    · have hz : ((0 : Int) == getSize l) = true := by
        rw [beq_iff_eq]
        omega
      rw [if_neg hc, if_pos hz]
      have hlnil : inorder l = [] := by
        have hlen0 : (inorder l).length = 0 := by omega
        exact List.eq_nil_of_length_eq_zero hlen0
      simp only [inorder]
      rw [hlnil]
      rfl

/-! ### Market execution: the naive greedy reference walk -/

/-- The spec's naive reference walk: enumerate the resting orders in rank
order and greedily take `min(remaining, quantity)` units from each, summing
`price × units taken`, in exact integer arithmetic. -/
def greedyCost : List OrderData → Int → Int
  | [], _ => 0
  | o :: rest, q =>
      if 0 < q then min q o.sizeShares * o.price + greedyCost rest (q - min q o.sizeShares)
      else 0

/-- The orders left resting after the greedy walk: fully consumed orders are
dropped, a partially consumed head keeps its reduced quantity. -/
def greedyRest : List OrderData → Int → List OrderData
  | [], _ => []
  | o :: rest, q =>
      if 0 < q then
        if o.sizeShares - min q o.sizeShares = 0 then greedyRest rest (q - min q o.sizeShares)
        else ⟨o.price, o.sizeShares - min q o.sizeShares, o.insertion_id⟩ :: rest
      else o :: rest

theorem greedyCost_nonpos (L : List OrderData) (q : Int) (h : ¬ 0 < q) :
    greedyCost L q = 0 := by
  cases L <;> simp [greedyCost, h]

theorem greedyRest_nonpos (L : List OrderData) (q : Int) (h : ¬ 0 < q) :
    greedyRest L q = L := by
  cases L <;> simp [greedyRest, h]

theorem buyLoop_nonpos (root : Treap) (shares cost : Int) (h : ¬ 0 < shares) :
    buyLoop root shares cost = (cost, root) := by
  rw [buyLoop]
  simp [h]

theorem buyLoop_none (root : Treap) (shares cost : Int) (h : 0 < shares)
    (hr : getByRank root 0 = none) : buyLoop root shares cost = (cost, root) := by
  rw [buyLoop, dif_pos h]
  split
  · rfl
  · rename_i top heq
    rw [hr] at heq
    exact Option.noConfusion heq

theorem buyLoop_step (root : Treap) (shares cost : Int) (h : 0 < shares)
    (top : OrderData) (hr : getByRank root 0 = some top) :
    buyLoop root shares cost =
      if top.sizeShares - min shares top.sizeShares = 0 then
        buyLoop
          (removeByRank (setShares root 0 (top.sizeShares - min shares top.sizeShares)) 0)
          (shares - min shares top.sizeShares)
          (cost + min shares top.sizeShares * top.price)
      else
        buyLoop
          (setShares root 0 (top.sizeShares - min shares top.sizeShares))
          (shares - min shares top.sizeShares)
          (cost + min shares top.sizeShares * top.price) := by
  rw [buyLoop, dif_pos h]
  split
  · rename_i heq
    rw [hr] at heq
    exact Option.noConfusion heq
  · rename_i top2 heq
    rw [hr] at heq
    injection heq with e
    subst e
    rfl

/-- Main correctness of the `buy` loop on size-consistent trees: the returned
cost is the greedy reference cost over the rank-ordered book, and the final
tree holds exactly the greedy remainder. -/
theorem buyLoop_spec : ∀ (n : Nat) (t : Treap), nodeCount t ≤ n → sizeOk t = true →
    ∀ shares cost,
      (buyLoop t shares cost).1 = cost + greedyCost (inorder t) shares ∧
      inorder (buyLoop t shares cost).2 = greedyRest (inorder t) shares ∧
      sizeOk (buyLoop t shares cost).2 = true := by
  intro n
  induction n with
  | zero =>
    intro t hle hs shares cost
    have ht : t = .nil := by
      cases t with
      | nil => rfl
      | node p s i pr ssz l r => simp [nodeCount] at hle
    subst ht
    by_cases hq : 0 < shares
    · rw [buyLoop_none .nil shares cost hq rfl]
      simp [inorder, greedyCost, greedyRest, hs]
    · rw [buyLoop_nonpos _ _ _ hq]
      simp [inorder, greedyCost, greedyRest, hs]
  | succ n ih =>
    intro t hle hs shares cost
    by_cases hq : 0 < shares
    · cases hr : getByRank t 0 with
      | none =>
        rw [buyLoop_none _ _ _ hq hr]
        have hnil : inorder t = [] := by
          cases hl : inorder t with
          | nil => rfl
          | cons o rest =>
            exfalso
            rw [getByRank_spec t hs 0] at hr
            have hsz : (0 : Int) < getSize t := by
              rw [getSize_eq_nodeCount t hs, ← length_inorder, hl]
              simp
            rw [if_pos ⟨le_refl 0, hsz⟩, hl] at hr
            simp at hr
        rw [hnil]
        simp [greedyCost, greedyRest, hs]
      | some top =>
        obtain ⟨tail, htl⟩ : ∃ tail, inorder t = top :: tail := by
          rw [getByRank_spec t hs 0] at hr
          by_cases hsz2 : (0 : Int) ≤ 0 ∧ (0 : Int) < getSize t
          · rw [if_pos hsz2] at hr
            cases hl : inorder t with
            | nil =>
              rw [hl] at hr
              simp at hr
            | cons o rest =>
              rw [hl] at hr
              simp at hr
              exact ⟨rest, by rw [hr]⟩
          · rw [if_neg hsz2] at hr
            simp at hr
        have hsz : (0 : Int) < getSize t := by
          rw [getSize_eq_nodeCount t hs, ← length_inorder, htl]
          simp
        rw [buyLoop_step t shares cost hq top hr]
        by_cases hz : top.sizeShares - min shares top.sizeShares = 0
        · rw [if_pos hz]
          have hs2 : sizeOk (setShares t 0 (top.sizeShares - min shares top.sizeShares)) = true := by
            rw [sizeOk_setShares]
            exact hs
          have hs3 : sizeOk
              (removeByRank (setShares t 0 (top.sizeShares - min shares top.sizeShares)) 0) = true :=
            sizeOk_removeByRank _ _ hs2
          have hio2 : inorder (setShares t 0 (top.sizeShares - min shares top.sizeShares))
              = ⟨top.price, top.sizeShares - min shares top.sizeShares, top.insertion_id⟩ :: tail := by
            rw [inorder_setShares_zero t _ hs, htl]
          have hsz2 : (0 : Int) < getSize (setShares t 0 (top.sizeShares - min shares top.sizeShares)) := by
            rw [getSize_setShares]
            exact hsz
          have hio3 : inorder
              (removeByRank (setShares t 0 (top.sizeShares - min shares top.sizeShares)) 0) = tail := by
            rw [inorder_removeByRank _ 0 hs2 (le_refl 0) hsz2, hio2]
            simp
          have hcnt : nodeCount
              (removeByRank (setShares t 0 (top.sizeShares - min shares top.sizeShares)) 0) ≤ n := by
            rw [← length_inorder, hio3]
            have hlen : (inorder t).length = tail.length + 1 := by
              rw [htl]
              simp
            rw [length_inorder] at hlen
            omega
          obtain ⟨e1, e2, e3⟩ := ih _ hcnt hs3 (shares - min shares top.sizeShares)
            (cost + min shares top.sizeShares * top.price)
          refine ⟨?_, ?_, e3⟩
          · rw [e1, hio3, htl]
            simp only [greedyCost]
            rw [if_pos hq]
            ring
          · rw [e2, hio3, htl]
            simp only [greedyRest]
            rw [if_pos hq, if_pos hz]
        · rw [if_neg hz]
          have hcf : min shares top.sizeShares = shares := by
            rcases min_choice shares top.sizeShares with hm | hm
            · exact hm
            · exact absurd (by omega) hz
          rw [buyLoop_nonpos _ _ _ (by omega : ¬ 0 < shares - min shares top.sizeShares)]
          refine ⟨?_, ?_, ?_⟩
          · rw [htl]
            simp only [greedyCost]
            rw [if_pos hq]
            rw [greedyCost_nonpos tail _ (by omega)]
            ring
          · rw [htl]
            simp only [greedyRest]
            rw [if_pos hq, if_neg hz]
            rw [inorder_setShares_zero t _ hs, htl]
          · rw [sizeOk_setShares]
            exact hs
    · rw [buyLoop_nonpos _ _ _ hq]
      refine ⟨?_, ?_, hs⟩
      · rw [greedyCost_nonpos _ _ hq]
        ring
      · rw [greedyRest_nonpos _ _ hq]

/-! ### Book-level invariant and books built from command sequences -/

/-- Every reachable book satisfies the tree invariants, and every resting
order's sequence number is below the global counter (so fresh ids never
collide). -/
def BookInv (b : OrderBook) : Prop :=
  List.Pairwise keyLt (inorder b.root) ∧ heapOk b.root = true ∧
    sizeOk b.root = true ∧
    ∀ x ∈ inorder b.root, x.insertion_id < b.globalInsertionCounter

theorem bookInv_empty : BookInv emptyBook := by
  refine ⟨?_, rfl, rfl, ?_⟩ <;> simp [emptyBook, inorder]

theorem bookInv_add (b : OrderBook) (price size prio : Int) (h : BookInv b) :
    BookInv (b.add price size prio) := by
  obtain ⟨hp, hh, hsz, hid⟩ := h
  have hfresh : ∀ x ∈ inorder b.root,
      ¬(x.price = price ∧ x.insertion_id = b.globalInsertionCounter) := by
    intro x hx hcontra
    have := hid x hx
    omega
  refine ⟨?_, ?_, ?_, ?_⟩
  · rw [← bstOk_iff_pairwise]
    exact bstOk_treapInsert _ _ _ _ _ ((bstOk_iff_pairwise _).mpr hp) hfresh
  · exact heapOk_treapInsert _ _ _ _ _ hh
  · exact sizeOk_treapInsert _ _ _ _ _ hsz
  · intro x hx
    have hmem := (inorder_treapInsert_perm b.root price size
      b.globalInsertionCounter prio).mem_iff.mp hx
    show x.insertion_id < b.globalInsertionCounter + 1
    rcases List.mem_cons.mp hmem with hx2 | hx2
    · subst hx2
      show b.globalInsertionCounter < b.globalInsertionCounter + 1
      omega
    · have := hid x hx2
      omega

/-- The book produced by a sequence of add commands `(price, qty, priority)`
starting from the empty book. -/
def mkBook (cmds : List (Int × Int × Int)) : OrderBook :=
  cmds.foldl (fun b c => b.add c.1 c.2.1 c.2.2) emptyBook

theorem bookInv_foldl (cmds : List (Int × Int × Int)) :
    ∀ b : OrderBook, BookInv b →
      BookInv (cmds.foldl (fun b c => b.add c.1 c.2.1 c.2.2) b) := by
  induction cmds with
  | nil => intro b h; simpa using h
  | cons c rest ih =>
    intro b h
    exact ih _ (bookInv_add b c.1 c.2.1 c.2.2 h)

theorem bookInv_mkBook (cmds : List (Int × Int × Int)) : BookInv (mkBook cmds) :=
  bookInv_foldl cmds emptyBook bookInv_empty

/-- Total resting quantity of a list of orders. -/
def totalQty (L : List OrderData) : Int :=
  (L.map (fun x => x.sizeShares)).sum

/-- Modelled from the spec: the spec says `split` is "used internally by
removal".  This is the natural split-based removal it describes: split off
the keys at most `(price, sequence)`, split off from those the keys at most
`(price, sequence - 1)` so that the middle part is exactly the node with the
given key, and merge the two remainders.  In `src/OrderBook.cpp` removal is
not implemented this way: `treapRemoveKey` removes the node directly and
merges its two children, and `treapSplit` has no callers at all. -/
def removeViaSplit (t : Treap) (price ins : Int) : Treap :=
  let s1 := treapSplit t price ins
  let s2 := treapSplit s1.1 price (ins - 1)
  treapMerge s2.1 s1.2

/-! ## Claim theorems -/

/-- C1: for every sequence of `addOrder` calls (each with positive quantity)
followed by one `executeMarket(Q)` with `Q` at most the total resting
quantity, the cost returned equals the naive reference walk: enumerate the
resting orders in ascending `(price, sequence)` rank order (the in-order
listing, proved strictly sorted), greedily take units from each until `Q`
units are taken, and sum `price × units taken`, in exact integer
arithmetic. -/
theorem C1_executeMarket_refines_greedy (cmds : List (Int × Int × Int))
    (hpos : ∀ c ∈ cmds, 0 < c.2.1) (Q : Int)
    (hQ : Q ≤ totalQty (inorder (mkBook cmds).root)) :
    List.Pairwise keyLt (inorder (mkBook cmds).root) ∧
    ((mkBook cmds).buy Q).1 = greedyCost (inorder (mkBook cmds).root) Q := by
  obtain ⟨hp, hh, hs, hid⟩ := bookInv_mkBook cmds
  refine ⟨hp, ?_⟩
  have h := (buyLoop_spec (nodeCount (mkBook cmds).root) _ (le_refl _) hs Q 0).1
  rw [zero_add] at h
  exact h

theorem C1_executeMarket_refines_greedy_witness :
    (∀ c ∈ [((5 : Int), (2 : Int), (7 : Int)), (3, 4, 1)], 0 < c.2.1) ∧
    (3 : Int) ≤ totalQty (inorder (mkBook [(5, 2, 7), (3, 4, 1)]).root) ∧
    (List.Pairwise keyLt (inorder (mkBook [(5, 2, 7), (3, 4, 1)]).root) ∧
     ((mkBook [(5, 2, 7), (3, 4, 1)]).buy 3).1
       = greedyCost (inorder (mkBook [(5, 2, 7), (3, 4, 1)]).root) 3) :=
  ⟨by decide, by decide,
    C1_executeMarket_refines_greedy [(5, 2, 7), (3, 4, 1)] (by decide) 3 (by decide)⟩

/-- C2: with exactly one resting order `(price 7, qty 4)` (any random
priority), `executeMarket(10)` over-requests, silently fills the 4 available
units for cost 28 and empties the book; a following `executeMarket(1)` on the
empty book returns cost 0. -/
theorem C2_partial_fill_under_liquidity (prio : Int) :
    ((emptyBook.add 7 4 prio).buy 10).1 = 28 ∧
    (((emptyBook.add 7 4 prio).buy 10).2).root = .nil ∧
    ((((emptyBook.add 7 4 prio).buy 10).2).buy 1).1 = 0 := by
  have hs : sizeOk ((emptyBook.add 7 4 prio).root) = true := rfl
  have hio : inorder ((emptyBook.add 7 4 prio).root) = [⟨7, 4, 0⟩] := rfl
  have hcnt : nodeCount ((emptyBook.add 7 4 prio).root) ≤ 1 := le_refl 1
  obtain ⟨e1, e2, e3⟩ := buyLoop_spec 1 _ hcnt hs 10 0
  refine ⟨?_, ?_, ?_⟩
  · show (buyLoop ((emptyBook.add 7 4 prio).root) 10 0).1 = 28
    rw [e1, hio]
    decide
  · show (buyLoop ((emptyBook.add 7 4 prio).root) 10 0).2 = Treap.nil
    rw [← inorder_eq_nil_iff, e2, hio]
    decide
  · have hnil : (buyLoop ((emptyBook.add 7 4 prio).root) 10 0).2 = Treap.nil := by
      rw [← inorder_eq_nil_iff, e2, hio]
      decide
    show (buyLoop (buyLoop ((emptyBook.add 7 4 prio).root) 10 0).2 1 0).1 = 0
    rw [hnil, buyLoop_none Treap.nil 1 0 (by norm_num) rfl]

/-- C3: FIFO at equal price, for every pair of random priorities.  After
adding `(price 10, qty 5)` then `(price 10, qty 3)`, `executeMarket(6)`
returns cost 60 — fully consuming the first order (5 units, cost 50) and one
unit of the second (cost 10) — and leaves exactly the order
`(price 10, qty 2, sequence 1)` resting, at rank 0. -/
theorem C3_fifo_equal_price (pr1 pr2 : Int) :
    (((emptyBook.add 10 5 pr1).add 10 3 pr2).buy 6).1 = 60 ∧
    inorder ((((emptyBook.add 10 5 pr1).add 10 3 pr2).buy 6).2.root) = [⟨10, 2, 1⟩] ∧
    getByRank ((((emptyBook.add 10 5 pr1).add 10 3 pr2).buy 6).2.root) 0
      = some ⟨10, 2, 1⟩ := by
  have hio : inorder (((emptyBook.add 10 5 pr1).add 10 3 pr2).root)
      = [⟨10, 5, 0⟩, ⟨10, 3, 1⟩] := by
    show inorder (treapInsert (Treap.node 10 5 0 pr1 1 .nil .nil) 10 3 1 pr2) = _
    rw [treapInsert, if_neg (by decide), inorder_updateSize]
    by_cases hpr : getPrio (treapInsert Treap.nil 10 3 1 pr2) > pr1
    · rw [if_pos hpr, inorder_rotateLeft]
      rfl
    · rw [if_neg hpr]
      rfl
  have hs : sizeOk (((emptyBook.add 10 5 pr1).add 10 3 pr2).root) = true := by
    show sizeOk (treapInsert (Treap.node 10 5 0 pr1 1 .nil .nil) 10 3 1 pr2) = true
    exact sizeOk_treapInsert 10 3 1 pr2 _ rfl
  have hcnt : nodeCount (((emptyBook.add 10 5 pr1).add 10 3 pr2).root) ≤ 2 := by
    rw [← length_inorder, hio]
    norm_num
  obtain ⟨e1, e2, e3⟩ := buyLoop_spec 2 _ hcnt hs 6 0
  have hfin : inorder ((((emptyBook.add 10 5 pr1).add 10 3 pr2).buy 6).2.root)
      = [⟨10, 2, 1⟩] := by
    show inorder (buyLoop (((emptyBook.add 10 5 pr1).add 10 3 pr2).root) 6 0).2 = _
    rw [e2, hio]
    decide
  refine ⟨?_, hfin, ?_⟩
  · show (buyLoop (((emptyBook.add 10 5 pr1).add 10 3 pr2).root) 6 0).1 = 60
    rw [e1, hio]
    decide
  · show getByRank (buyLoop (((emptyBook.add 10 5 pr1).add 10 3 pr2).root) 6 0).2 0
      = some ⟨10, 2, 1⟩
    have hsz : getSize (buyLoop (((emptyBook.add 10 5 pr1).add 10 3 pr2).root) 6 0).2
        = 1 := by
      rw [getSize_eq_nodeCount _ e3, ← length_inorder]
      rw [show inorder (buyLoop (((emptyBook.add 10 5 pr1).add 10 3 pr2).root) 6 0).2
        = [⟨10, 2, 1⟩] from hfin]
      rfl
    rw [getByRank_spec _ e3 0, if_pos ⟨le_refl 0, by rw [hsz]; norm_num⟩]
    rw [show inorder (buyLoop (((emptyBook.add 10 5 pr1).add 10 3 pr2).root) 6 0).2
      = [⟨10, 2, 1⟩] from hfin]
    rfl

/-- C4: every tree mutation — insert, merge (of key-separated trees), split,
remove-by-key, remove-by-rank, and the in-place quantity decrement performed
during `executeMarket` — preserves all three structural invariants: strictly
increasing in-order `(price, sequence)` keys, the max-heap property on
priorities, and local consistency of every `subtree_size`. -/
theorem C4_invariants :
    (∀ (t : Treap) (np ns nid npr : Int), Inv t →
      (∀ x ∈ inorder t, ¬(x.price = np ∧ x.insertion_id = nid)) →
      Inv (treapInsert t np ns nid npr)) ∧
    (∀ L R : Treap, Inv L → Inv R →
      (∀ a ∈ inorder L, ∀ b ∈ inorder R, keyLt a b) → Inv (treapMerge L R)) ∧
    (∀ (t : Treap) (kp ki : Int), Inv t →
      Inv (treapSplit t kp ki).1 ∧ Inv (treapSplit t kp ki).2) ∧
    (∀ (t : Treap) (kp ki : Int), Inv t → Inv (treapRemoveKey t kp ki)) ∧
    (∀ (t : Treap) (rk : Int), Inv t → Inv (removeByRank t rk)) ∧
    (∀ (t : Treap) (rk v : Int), Inv t → Inv (setShares t rk v)) := by
  refine ⟨?_, ?_, ?_, ?_, ?_, ?_⟩
  · intro t np ns nid npr hInv hfresh
    obtain ⟨hp, hh, hs⟩ := hInv
    refine ⟨?_, heapOk_treapInsert _ _ _ _ _ hh, sizeOk_treapInsert _ _ _ _ _ hs⟩
    rw [← bstOk_iff_pairwise]
    exact bstOk_treapInsert _ _ _ _ _ ((bstOk_iff_pairwise _).mpr hp) hfresh
  · intro L R hL hR hcross
    refine ⟨?_, heapOk_treapMerge _ _ hL.2.1 hR.2.1, sizeOk_treapMerge _ _ hL.2.2 hR.2.2⟩
    rw [inorder_treapMerge]
    exact List.pairwise_append.mpr ⟨hL.1, hR.1, hcross⟩
  · intro t kp ki hInv
    obtain ⟨hp, hh, hs⟩ := hInv
    obtain ⟨e1, e2⟩ := inorder_treapSplit t kp ki ((bstOk_iff_pairwise t).mpr hp)
    obtain ⟨⟨hh1, hh2⟩, _⟩ := heapOk_treapSplit t kp ki hh
    obtain ⟨hs1, hs2⟩ := sizeOk_treapSplit t kp ki hs
    refine ⟨⟨?_, hh1, hs1⟩, ⟨?_, hh2, hs2⟩⟩
    · rw [e1]
      exact List.Pairwise.sublist (List.filter_sublist _) hp
    · rw [e2]
      exact List.Pairwise.sublist (List.filter_sublist _) hp
  · intro t kp ki hInv
    obtain ⟨hp, hh, hs⟩ := hInv
    exact ⟨List.Pairwise.sublist (inorder_treapRemoveKey_sublist t kp ki) hp,
      (heapOk_treapRemoveKey t kp ki hh).1, sizeOk_treapRemoveKey t kp ki hs⟩
  · intro t rk hInv
    obtain ⟨hp, hh, hs⟩ := hInv
    exact ⟨List.Pairwise.sublist (inorder_removeByRank_sublist t rk) hp,
      (heapOk_removeByRank t rk hh).1, sizeOk_removeByRank t rk hs⟩
  · intro t rk v hInv
    obtain ⟨hp, hh, hs⟩ := hInv
    refine ⟨?_, by rw [heapOk_setShares]; exact hh, by rw [sizeOk_setShares]; exact hs⟩
    have h1 : List.Pairwise (fun u w : Int × Int => lessThan u.1 u.2 w.1 w.2 = true)
        ((inorder (setShares t rk v)).map (fun x => (x.price, x.insertion_id))) := by
      rw [inorder_setShares_keys, List.pairwise_map]
      exact hp
    rw [List.pairwise_map] at h1
    exact h1

theorem C4_invariants_witness :
    Inv (treapInsert (Treap.node 2 7 0 10 3 (Treap.node 1 4 1 5 1 .nil .nil)
      (Treap.node 3 5 2 6 1 .nil .nil)) 4 9 7 3) ∧
    Inv (treapMerge (Treap.node 1 1 0 5 1 .nil .nil) (Treap.node 3 1 1 4 1 .nil .nil)) ∧
    (Inv (treapSplit (Treap.node 2 7 0 10 3 (Treap.node 1 4 1 5 1 .nil .nil)
        (Treap.node 3 5 2 6 1 .nil .nil)) 2 0).1 ∧
     Inv (treapSplit (Treap.node 2 7 0 10 3 (Treap.node 1 4 1 5 1 .nil .nil)
        (Treap.node 3 5 2 6 1 .nil .nil)) 2 0).2) ∧
    Inv (treapRemoveKey (Treap.node 2 7 0 10 3 (Treap.node 1 4 1 5 1 .nil .nil)
      (Treap.node 3 5 2 6 1 .nil .nil)) 2 0) ∧
    Inv (removeByRank (Treap.node 2 7 0 10 3 (Treap.node 1 4 1 5 1 .nil .nil)
      (Treap.node 3 5 2 6 1 .nil .nil)) 1) ∧
    Inv (setShares (Treap.node 2 7 0 10 3 (Treap.node 1 4 1 5 1 .nil .nil)
      (Treap.node 3 5 2 6 1 .nil .nil)) 0 9) := by
  obtain ⟨h1, h2, h3, h4, h5, h6⟩ := C4_invariants
  exact ⟨h1 _ 4 9 7 3 (by decide) (by decide),
    h2 _ _ (by decide) (by decide) (by decide),
    h3 _ 2 0 (by decide),
    h4 _ 2 0 (by decide),
    h5 _ 1 (by decide),
    h6 _ 0 9 (by decide)⟩

/-- C5: cancelling at any rank outside `[0, size)` — negative or at least the
size — leaves the book bit-for-bit unchanged, with no error, for every book
state with consistent sizes. -/
theorem C5_cancel_out_of_range (b : OrderBook) (rk : Int)
    (hs : sizeOk b.root = true) (hrk : rk < 0 ∨ getSize b.root ≤ rk) :
    b.removeByPosition rk = b := by
  show { b with root := removeByRank b.root rk } = b
  rw [removeByRank_out_of_range b.root rk hs hrk]

theorem C5_cancel_out_of_range_witness :
    (sizeOk (Treap.node 5 2 0 3 1 .nil .nil) = true) ∧
    ((5 : Int) < 0 ∨ getSize (Treap.node 5 2 0 3 1 .nil .nil) ≤ 5) ∧
    OrderBook.removeByPosition ⟨Treap.node 5 2 0 3 1 .nil .nil, 1⟩ 5
      = ⟨Treap.node 5 2 0 3 1 .nil .nil, 1⟩ ∧
    OrderBook.removeByPosition ⟨Treap.node 5 2 0 3 1 .nil .nil, 1⟩ (-1)
      = ⟨Treap.node 5 2 0 3 1 .nil .nil, 1⟩ :=
  ⟨by decide, by decide,
    C5_cancel_out_of_range ⟨Treap.node 5 2 0 3 1 .nil .nil, 1⟩ 5 (by decide) (by decide),
    C5_cancel_out_of_range ⟨Treap.node 5 2 0 3 1 .nil .nil, 1⟩ (-1) (by decide) (by decide)⟩

/-- C6: `getByRank` is total on size-consistent trees: a rank in `[0, size)`
returns the node at that rank of the in-order (rank 0 = best) listing — always
`some` node — and every out-of-range rank, negative included, returns `none`;
no error or crash is possible. -/
theorem C6_getByRank_total (t : Treap) (hs : sizeOk t = true) (rk : Int) :
    (0 ≤ rk → rk < getSize t →
      getByRank t rk = (inorder t)[rk.toNat]? ∧ ∃ o, getByRank t rk = some o) ∧
    ((rk < 0 ∨ getSize t ≤ rk) → getByRank t rk = none) := by
  constructor
  · intro h0 hlt
    have he : getByRank t rk = (inorder t)[rk.toNat]? := by
      rw [getByRank_spec t hs rk, if_pos ⟨h0, hlt⟩]
    refine ⟨he, ?_⟩
    have hlen : rk.toNat < (inorder t).length := by
      rw [length_inorder]
      have := getSize_eq_nodeCount t hs
      omega
    exact ⟨(inorder t)[rk.toNat], by rw [he, List.getElem?_eq_getElem hlen]⟩
  · intro h
    rw [getByRank_spec t hs rk, if_neg (by omega)]

theorem C6_getByRank_total_witness :
    (sizeOk (Treap.node 2 7 0 10 3 (Treap.node 1 4 1 5 1 .nil .nil)
      (Treap.node 3 5 2 6 1 .nil .nil)) = true) ∧
    (getByRank (Treap.node 2 7 0 10 3 (Treap.node 1 4 1 5 1 .nil .nil)
        (Treap.node 3 5 2 6 1 .nil .nil)) 1
      = (inorder (Treap.node 2 7 0 10 3 (Treap.node 1 4 1 5 1 .nil .nil)
        (Treap.node 3 5 2 6 1 .nil .nil)))[(1 : Int).toNat]? ∧
      ∃ o, getByRank (Treap.node 2 7 0 10 3 (Treap.node 1 4 1 5 1 .nil .nil)
        (Treap.node 3 5 2 6 1 .nil .nil)) 1 = some o) ∧
    getByRank (Treap.node 2 7 0 10 3 (Treap.node 1 4 1 5 1 .nil .nil)
      (Treap.node 3 5 2 6 1 .nil .nil)) 9 = none :=
  ⟨by decide,
    (C6_getByRank_total (Treap.node 2 7 0 10 3 (Treap.node 1 4 1 5 1 .nil .nil)
      (Treap.node 3 5 2 6 1 .nil .nil)) (by decide) 1).1 (by decide) (by decide),
    (C6_getByRank_total (Treap.node 2 7 0 10 3 (Treap.node 1 4 1 5 1 .nil .nil)
      (Treap.node 3 5 2 6 1 .nil .nil)) (by decide) 9).2 (by decide)⟩

/-- C7 (amended): on every tree whose in-order keys are strictly increasing,
`split(kp, ki)` partitions the orders exactly: the left result holds exactly
those with key at most `(kp, ki)` and the right result exactly those with key
greater, both in rank order.  (The claim's further assertion that split is
used internally by removal is false of this code — see the counterexample:
removal merges the children of the removed node directly, and `treapSplit`
has no callers.) -/
theorem C7_split_partition (t : Treap) (kp ki : Int)
    (hp : List.Pairwise keyLt (inorder t)) :
    inorder (treapSplit t kp ki).1 = (inorder t).filter (fun x => keyLeB x kp ki) ∧
    inorder (treapSplit t kp ki).2 = (inorder t).filter (fun x => !(keyLeB x kp ki)) :=
  inorder_treapSplit t kp ki ((bstOk_iff_pairwise t).mpr hp)

theorem C7_split_partition_witness :
    List.Pairwise keyLt (inorder (Treap.node 2 7 0 10 3
      (Treap.node 1 4 1 5 1 .nil .nil) (Treap.node 3 5 2 6 1 .nil .nil))) ∧
    (inorder (treapSplit (Treap.node 2 7 0 10 3 (Treap.node 1 4 1 5 1 .nil .nil)
        (Treap.node 3 5 2 6 1 .nil .nil)) 2 0).1
      = (inorder (Treap.node 2 7 0 10 3 (Treap.node 1 4 1 5 1 .nil .nil)
        (Treap.node 3 5 2 6 1 .nil .nil))).filter (fun x => keyLeB x 2 0) ∧
     inorder (treapSplit (Treap.node 2 7 0 10 3 (Treap.node 1 4 1 5 1 .nil .nil)
        (Treap.node 3 5 2 6 1 .nil .nil)) 2 0).2
      = (inorder (Treap.node 2 7 0 10 3 (Treap.node 1 4 1 5 1 .nil .nil)
        (Treap.node 3 5 2 6 1 .nil .nil))).filter (fun x => !(keyLeB x 2 0))) :=
  ⟨by decide,
    C7_split_partition (Treap.node 2 7 0 10 3 (Treap.node 1 4 1 5 1 .nil .nil)
      (Treap.node 3 5 2 6 1 .nil .nil)) 2 0 (by decide)⟩

/-- C7 counterexample to "split is used internally by removal": on the valid
treap holding keys `(1,0)` (root) and `(2,1)` (right child, equal priority),
removing the absent key `(1,1)` is a no-op for the source's `treapRemoveKey`,
while the split-based removal the spec describes reshapes the tree — so
removal is observably not implemented via split (indeed `treapSplit` has no
callers in the source). -/
theorem C7_split_not_used_by_removal_counterexample :
    Inv (Treap.node 1 1 0 5 2 .nil (Treap.node 2 1 1 5 1 .nil .nil)) ∧
    treapRemoveKey (Treap.node 1 1 0 5 2 .nil (Treap.node 2 1 1 5 1 .nil .nil)) 1 1
      = Treap.node 1 1 0 5 2 .nil (Treap.node 2 1 1 5 1 .nil .nil) ∧
    treapRemoveKey (Treap.node 1 1 0 5 2 .nil (Treap.node 2 1 1 5 1 .nil .nil)) 1 1
      ≠ removeViaSplit (Treap.node 1 1 0 5 2 .nil (Treap.node 2 1 1 5 1 .nil .nil)) 1 1 := by
  refine ⟨by decide, by decide, ?_⟩
  have hm : removeViaSplit (Treap.node 1 1 0 5 2 .nil (Treap.node 2 1 1 5 1 .nil .nil)) 1 1
      = Treap.node 2 1 1 5 2 (Treap.node 1 1 0 5 1 .nil .nil) .nil := by
    show treapMerge (Treap.node 1 1 0 5 1 .nil .nil) (Treap.node 2 1 1 5 1 .nil .nil) = _
    rw [treapMerge, if_neg (by decide), treapMerge_nil_right]
    rfl
  rw [hm]
  decide

/-- C8: cancelling an in-range rank `r` removes exactly the order at rank `r`:
the book's rank listing loses exactly index `r`, the size drops by one, every
order below rank `r` keeps its rank (and its price, quantity and sequence),
and every order above is found at its old rank minus one. -/
theorem C8_cancel_removes_exact_rank (b : OrderBook) (rk : Int)
    (hs : sizeOk b.root = true) (h0 : 0 ≤ rk) (hlt : rk < getSize b.root) :
    inorder ((b.removeByPosition rk).root) = (inorder b.root).eraseIdx rk.toNat ∧
    getSize ((b.removeByPosition rk).root) = getSize b.root - 1 ∧
    (∀ j : Int, 0 ≤ j → j < rk →
      getByRank ((b.removeByPosition rk).root) j = getByRank b.root j) ∧
    (∀ j : Int, rk ≤ j → j < getSize b.root - 1 →
      getByRank ((b.removeByPosition rk).root) j = getByRank b.root (j + 1)) := by
  have hio := inorder_removeByRank b.root rk hs h0 hlt
  have hs2 := sizeOk_removeByRank b.root rk hs
  have hlen := length_inorder b.root
  have hgs := getSize_eq_nodeCount b.root hs
  have hlen2 : (inorder (removeByRank b.root rk)).length = (inorder b.root).length - 1 := by
    rw [hio, List.length_eraseIdx, if_pos (by omega)]
  have hgs2 : getSize (removeByRank b.root rk) = getSize b.root - 1 := by
    rw [getSize_eq_nodeCount _ hs2, ← length_inorder, hlen2]
    omega
  refine ⟨hio, hgs2, ?_, ?_⟩
  · intro j hj0 hjlt
    show getByRank (removeByRank b.root rk) j = getByRank b.root j
    rw [getByRank_spec _ hs2 j, getByRank_spec _ hs j]
    rw [if_pos ⟨hj0, by omega⟩, if_pos ⟨hj0, by omega⟩, hio]
    exact List.getElem?_eraseIdx_of_lt _ _ _ (by omega)
  · intro j hjge hjlt
    show getByRank (removeByRank b.root rk) j = getByRank b.root (j + 1)
    rw [getByRank_spec _ hs2 j, getByRank_spec _ hs (j + 1)]
    rw [if_pos ⟨by omega, by omega⟩, if_pos ⟨by omega, by omega⟩, hio]
    have h1 := List.getElem?_eraseIdx_of_ge (inorder b.root) rk.toNat j.toNat (by omega)
    rw [h1]
    have h2 : j.toNat + 1 = (j + 1).toNat := by omega
    rw [h2]

theorem C8_cancel_removes_exact_rank_witness :
    (sizeOk (Treap.node 2 7 0 10 3 (Treap.node 1 4 1 5 1 .nil .nil)
      (Treap.node 3 5 2 6 1 .nil .nil)) = true) ∧
    ((0 : Int) ≤ 1) ∧
    ((1 : Int) < getSize (Treap.node 2 7 0 10 3 (Treap.node 1 4 1 5 1 .nil .nil)
      (Treap.node 3 5 2 6 1 .nil .nil))) ∧
    inorder ((OrderBook.removeByPosition ⟨Treap.node 2 7 0 10 3
        (Treap.node 1 4 1 5 1 .nil .nil) (Treap.node 3 5 2 6 1 .nil .nil), 3⟩ 1).root)
      = (inorder (Treap.node 2 7 0 10 3 (Treap.node 1 4 1 5 1 .nil .nil)
        (Treap.node 3 5 2 6 1 .nil .nil))).eraseIdx (1 : Int).toNat ∧
    getByRank ((OrderBook.removeByPosition ⟨Treap.node 2 7 0 10 3
        (Treap.node 1 4 1 5 1 .nil .nil) (Treap.node 3 5 2 6 1 .nil .nil), 3⟩ 1).root) 0
      = getByRank (Treap.node 2 7 0 10 3 (Treap.node 1 4 1 5 1 .nil .nil)
        (Treap.node 3 5 2 6 1 .nil .nil)) 0 ∧
    getByRank ((OrderBook.removeByPosition ⟨Treap.node 2 7 0 10 3
        (Treap.node 1 4 1 5 1 .nil .nil) (Treap.node 3 5 2 6 1 .nil .nil), 3⟩ 1).root) 1
      = getByRank (Treap.node 2 7 0 10 3 (Treap.node 1 4 1 5 1 .nil .nil)
        (Treap.node 3 5 2 6 1 .nil .nil)) 2 := by
  obtain ⟨e1, e2, e3, e4⟩ := C8_cancel_removes_exact_rank
    ⟨Treap.node 2 7 0 10 3 (Treap.node 1 4 1 5 1 .nil .nil)
      (Treap.node 3 5 2 6 1 .nil .nil), 3⟩ 1 (by decide) (by decide) (by decide)
  refine ⟨by decide, by decide, by decide, e1, e3 0 (by decide) (by decide), ?_⟩
  have h := e4 1 (by decide) (by decide)
  exact h

/-- C9: a market execution requesting a non-positive quantity returns cost 0
and leaves the book completely unchanged, for every book state. -/
theorem C9_nonpositive_market_noop (b : OrderBook) (q : Int) (hq : q ≤ 0) :
    b.buy q = (0, b) := by
  show ((buyLoop b.root q 0).1, { b with root := (buyLoop b.root q 0).2 }) = (0, b)
  rw [buyLoop_nonpos b.root q 0 (by omega)]

theorem C9_nonpositive_market_noop_witness :
    ((0 : Int) ≤ 0) ∧
    OrderBook.buy ⟨Treap.node 5 2 0 3 1 .nil .nil, 1⟩ 0
      = (0, ⟨Treap.node 5 2 0 3 1 .nil .nil, 1⟩) ∧
    ((-7 : Int) ≤ 0) ∧
    OrderBook.buy ⟨Treap.node 5 2 0 3 1 .nil .nil, 1⟩ (-7)
      = (0, ⟨Treap.node 5 2 0 3 1 .nil .nil, 1⟩) :=
  ⟨by decide, C9_nonpositive_market_noop ⟨Treap.node 5 2 0 3 1 .nil .nil, 1⟩ 0 (by decide),
    by decide, C9_nonpositive_market_noop ⟨Treap.node 5 2 0 3 1 .nil .nil, 1⟩ (-7) (by decide)⟩

/-- C10: `add` enforces no positivity contract on the quantity: for every
price and every quantity — zero and negative included — it inserts a resting
order carrying exactly that quantity with the current sequence number, and
the number of resting orders grows by exactly one. -/
theorem C10_add_unvalidated (b : OrderBook) (price qty prio : Int) :
    nodeCount ((b.add price qty prio).root) = nodeCount b.root + 1 ∧
    List.Perm (inorder ((b.add price qty prio).root))
      (⟨price, qty, b.globalInsertionCounter⟩ :: inorder b.root) := by
  constructor
  · have hp := inorder_treapInsert_perm b.root price qty b.globalInsertionCounter prio
    have h1 := hp.length_eq
    rw [length_inorder, List.length_cons, length_inorder] at h1
    exact h1
  · exact inorder_treapInsert_perm b.root price qty b.globalInsertionCounter prio

end OrderBookModel
